import Mathlib

/-!
Verification of the grammar-compilation and string-matching engine of
`src/advent_2020/day19_with_nom.rs` together with the parser helpers of
`src/helper/nom.rs`.

The embedding works on `List Char` in place of Rust `&str`.  The nom
parsers of the source are embedded as explicit recursive functions; the
matcher (`RuleSet::rule_to_parser` plus the custom `DynamicAlt`
combinator) is embedded with an explicit fuel argument standing for the
call-stack depth of the Rust recursion: the Rust functions diverge
exactly where every fuel runs out, and `∃ fuel` recovers the partial
function the source computes.  A Rust panic (the `expect` inside
`DynamicAlt::choice`, and the `unwrap` inside `Rule::parse_ref`) is made
an explicit outcome.
-/

namespace Day19

/-- `Rule` from `day19_with_nom.rs`: `Lit(String)`, `Ref(usize)`,
`Sequence(Vec<Rule>)`, `Alternative(Vec<Rule>)`. -/
inductive Rule where
  | Lit : List Char → Rule
  | Ref : Nat → Rule
  | Sequence : List Rule → Rule
  | Alternative : List Rule → Rule

mutual

/-- The derived `PartialEq` for `Rule` (structural equality). -/
def beqRule : Rule → Rule → Bool
  | Rule.Lit a, Rule.Lit b => a == b
  | Rule.Ref a, Rule.Ref b => a == b
  | Rule.Sequence a, Rule.Sequence b => beqListRule a b
  | Rule.Alternative a, Rule.Alternative b => beqListRule a b
  | _, _ => false

/-- The derived `PartialEq` for `Vec<Rule>`. -/
def beqListRule : List Rule → List Rule → Bool
  | [], [] => true
  | a :: as, b :: bs => beqRule a b && beqListRule as bs
  | _, _ => false

end

mutual

theorem beqRule_iff : ∀ a b : Rule, beqRule a b = true ↔ a = b
  | Rule.Lit a, Rule.Lit b => by simp [beqRule]
  | Rule.Ref a, Rule.Ref b => by simp [beqRule]
  | Rule.Sequence a, Rule.Sequence b => by
      simp only [beqRule, beqListRule_iff a b]
      exact ⟨fun h => by rw [h], fun h => by cases h; rfl⟩
  | Rule.Alternative a, Rule.Alternative b => by
      simp only [beqRule, beqListRule_iff a b]
      exact ⟨fun h => by rw [h], fun h => by cases h; rfl⟩
  | Rule.Lit _, Rule.Ref _ => by simp [beqRule]
  | Rule.Lit _, Rule.Sequence _ => by simp [beqRule]
  | Rule.Lit _, Rule.Alternative _ => by simp [beqRule]
  | Rule.Ref _, Rule.Lit _ => by simp [beqRule]
  | Rule.Ref _, Rule.Sequence _ => by simp [beqRule]
  | Rule.Ref _, Rule.Alternative _ => by simp [beqRule]
  | Rule.Sequence _, Rule.Lit _ => by simp [beqRule]
  | Rule.Sequence _, Rule.Ref _ => by simp [beqRule]
  | Rule.Sequence _, Rule.Alternative _ => by simp [beqRule]
  | Rule.Alternative _, Rule.Lit _ => by simp [beqRule]
  | Rule.Alternative _, Rule.Ref _ => by simp [beqRule]
  | Rule.Alternative _, Rule.Sequence _ => by simp [beqRule]

theorem beqListRule_iff : ∀ a b : List Rule, beqListRule a b = true ↔ a = b
  | [], [] => by simp [beqListRule]
  | [], _ :: _ => by simp [beqListRule]
  | _ :: _, [] => by simp [beqListRule]
  | a :: as, b :: bs => by
      simp [beqListRule, beqRule_iff a b, beqListRule_iff as bs]

end

instance : DecidableEq Rule := fun a b => decidable_of_iff _ (beqRule_iff a b)

/-- `RuleSet` is a `BTreeMap<usize, Rule>`: embedded as an association
list; the `BTreeMap` operations used by the source (`get`, `insert`,
`extend`, value-wise iteration) are given below. -/
def RuleSet := List (Nat × Rule)

instance : DecidableEq RuleSet := by
  unfold RuleSet
  infer_instance

namespace RuleSet

/-- `BTreeMap::get`: first entry with the given key (keys are unique in
a map built by the source's operations). -/
def find? : RuleSet → Nat → Option Rule
  | [], _ => none
  | (k, r) :: t, i => if i = k then some r else find? t i

/-- `BTreeMap::insert`: replace the entry of an existing key, otherwise
insert keeping keys ordered. -/
def insertRule : RuleSet → Nat → Rule → RuleSet
  | [], i, r => [(i, r)]
  | (k, v) :: t, i, r =>
    if i < k then (i, r) :: (k, v) :: t
    else if i = k then (i, r) :: t
    else (k, v) :: insertRule t i r

/-- `RuleSet::merge_rules`: `self.rules.extend(entries)` — insert every
entry in order, later entries overwriting earlier ones. -/
def merge_rules (g : RuleSet) (entries : List (Nat × Rule)) : RuleSet :=
  entries.foldl (fun g e => insertRule g e.1 e.2) g

end RuleSet

/-- Outcome of running one of the source's nom parsers on an input:
`ok rest` is `Ok((rest, ()))`, `err` is `Err(Err::Error(_))`, `fail` is
`Err(Err::Failure(_))` (produced by a `Reference` to an absent id), and
`panic` is a Rust panic (the `expect` in `DynamicAlt::choice` reached
with an empty alternative vector). -/
inductive POutcome where
  | ok : List Char → POutcome
  | err : POutcome
  | fail : POutcome
  | panic : POutcome
  deriving DecidableEq, Repr

/-- Semantics of `nom::bytes::complete::tag(lit)`: succeed consuming
`lit` when it is a prefix of the input, otherwise `Err::Error`. -/
def litOutcome (t : List Char) (s : List Char) : POutcome :=
  if t <+: s then POutcome.ok (s.drop t.length) else POutcome.err

/-- The `Tuple` impl for `DynamicAlt`: run each member in order,
threading the remaining input; any error propagates at once.  `run1`
is the parser obtained for one member rule. -/
def dynTuple (run1 : Rule → List Char → Option POutcome) :
    List Rule → List Char → Option POutcome
  | [], s => some (POutcome.ok s)
  | r :: rs, s =>
    match run1 r s with
    | none => none
    | some (POutcome.ok s') => dynTuple run1 rs s'
    | some o => some o

/-- `DynamicAlt::choice`: every branch but the last is tried at the
original input and any `Err` (``Error`` or ``Failure`` alike) makes it
fall through to the next branch; the last branch's result is returned
as is; an empty branch vector panics (`self.0[..length - 1]` underflows
and the `expect` is unreachable). -/
def dynChoice (run1 : Rule → List Char → Option POutcome) :
    List Rule → List Char → Option POutcome
  | [], _ => some POutcome.panic
  | [r], s => run1 r s
  | r :: r' :: rs, s =>
    match run1 r s with
    | none => none
    | some (POutcome.ok s') => some (POutcome.ok s')
    | some POutcome.panic => some POutcome.panic
    | some _ => dynChoice run1 (r' :: rs) s

/-- `RuleSet::rule_to_parser` applied to an input, with fuel for the
Rust call stack (the Rust recursion diverges exactly where every fuel
returns `none`).  The context-wrapping combinators of the source only
decorate the error value and are dropped. -/
def runRule (g : RuleSet) : Nat → Rule → List Char → Option POutcome
  | 0, _, _ => none
  | _ + 1, Rule.Lit t, s => some (litOutcome t s)
  | n + 1, Rule.Ref i, s =>
    match RuleSet.find? g i with
    | none => some POutcome.fail
    | some r => runRule g n r s
  | n + 1, Rule.Sequence v, s => dynTuple (runRule g n) v s
  | n + 1, Rule.Alternative v, s => dynChoice (runRule g n) v s

/-- `matches!(r, Rule::Lit(_))`. -/
def isLitRule : Rule → Bool
  | Rule.Lit _ => true
  | _ => false

/-- The text of a `Lit` (used only where every rule of a list is a
`Lit`, matching the source's `unreachable!` default). -/
def litText : Rule → List Char
  | Rule.Lit t => t
  | _ => []

/-- `itertools::all_equal` on the derived `PartialEq`. -/
def allEqual : List Rule → Bool
  | [] => true
  | x :: xs => xs.all (beqRule x)

mutual

/-- `RuleSet::simplify_rule`: one local simplification attempt;
`none` means "no change". -/
def simplify_rule (g : RuleSet) (current_idx : Nat) : Rule → Option Rule
  | Rule.Lit _ => none
  | Rule.Ref i =>
    if i = current_idx then none
    else
      match RuleSet.find? g i with
      | some (Rule.Lit t) => some (Rule.Lit t)
      | _ => none
  | Rule.Sequence v =>
    let simps := simplifyMembers g current_idx v
    if simps.all Option.isNone then none
    else
      let nv := List.zipWith (fun o r => o.getD r) simps v
      if nv.all isLitRule then some (Rule.Lit (nv.map litText).flatten)
      else some (Rule.Sequence nv)
  | Rule.Alternative v =>
    let simps := simplifyMembers g current_idx v
    if simps.all Option.isNone then none
    else
      let nv := List.zipWith (fun o r => o.getD r) simps v
      match nv with
      | [] => none
      | b :: bs =>
        if allEqual (b :: bs) then some b
        else some (Rule.Alternative (b :: bs))

/-- `v.iter().map(|r| self.simplify_rule(current_idx, r)).collect()`. -/
def simplifyMembers (g : RuleSet) (current_idx : Nat) :
    List Rule → List (Option Rule)
  | [] => []
  | r :: rs => simplify_rule g current_idx r :: simplifyMembers g current_idx rs

end

/-- The rule an entry holds after one pass: the simplification when one
was found (`changes` applies it via `insert`), the old rule otherwise. -/
def applySimp (g : RuleSet) (idx : Nat) (r : Rule) : Rule :=
  (simplify_rule g idx r).getD r

/-- `!changes.is_empty()` for one pass of `RuleSet::simplify`. -/
def changesExist (g : RuleSet) : Bool :=
  g.any fun p => (simplify_rule g p.1 p.2).isSome

/-- One pass of `RuleSet::simplify`: collect the simplifications of
every entry against the current table, then write them back. -/
def simplifyStep (g : RuleSet) : RuleSet :=
  g.map fun p => (p.1, applySimp g p.1 p.2)

mutual

/-- Number of `Ref` nodes of a rule: the termination measure of
`RuleSet::simplify` (every recorded change removes at least one
inlinable reference). -/
def refCount : Rule → Nat
  | Rule.Lit _ => 0
  | Rule.Ref _ => 1
  | Rule.Sequence v => refCountList v
  | Rule.Alternative v => refCountList v

def refCountList : List Rule → Nat
  | [] => 0
  | r :: rs => refCount r + refCountList rs

end

/-- Total `Ref` count of a rule table. -/
def measureRS (g : RuleSet) : Nat :=
  (g.map fun p => refCount p.2).sum

theorem refCount_mem_le {r : Rule} {v : List Rule} (h : r ∈ v) :
    refCount r ≤ refCountList v := by
  induction v with
  | nil => cases h
  | cons a as ih =>
    rw [refCountList]
    rcases List.mem_cons.1 h with h | h
    · subst h; omega
    · have := ih h; omega

mutual

theorem simplify_rule_refCount :
    ∀ (g : RuleSet) (idx : Nat) (r r' : Rule),
      simplify_rule g idx r = some r' → refCount r' < refCount r
  | g, idx, Rule.Lit t, r' => by simp [simplify_rule]
  | g, idx, Rule.Ref i, r' => by
    rw [simplify_rule]
    split
    · simp
    · split
      · rintro h
        cases h
        simp [refCount]
      · simp
  | g, idx, Rule.Sequence v, r' => by
    rw [simplify_rule]
    simp only
    split
    · simp
    · rename_i hnotall
      have hlt := (simplifyMembers_refCount g idx v).2
        (Bool.not_eq_true _ ▸ hnotall)
      split <;> rintro ⟨rfl⟩ <;> simp only [refCount] <;> omega
  | g, idx, Rule.Alternative v, r' => by
    rw [simplify_rule]
    simp only
    split
    · simp
    · rename_i hnotall
      have hlt := (simplifyMembers_refCount g idx v).2
        (Bool.not_eq_true _ ▸ hnotall)
      split
      · simp
      · rename_i b bs hnv
        have hble : refCount b ≤
            refCountList (List.zipWith (fun o r => o.getD r)
              (simplifyMembers g idx v) v) := by
          rw [hnv]
          exact refCount_mem_le (List.mem_cons_self _ _)
        split <;> rintro ⟨rfl⟩ <;> simp only [refCount]
        · omega
        · rw [← hnv]; omega

theorem simplifyMembers_refCount :
    ∀ (g : RuleSet) (idx : Nat) (v : List Rule),
      refCountList (List.zipWith (fun o r => o.getD r)
        (simplifyMembers g idx v) v) ≤ refCountList v ∧
      ((simplifyMembers g idx v).all Option.isNone = false →
        refCountList (List.zipWith (fun o r => o.getD r)
          (simplifyMembers g idx v) v) < refCountList v)
  | g, idx, [] => by simp [simplifyMembers, refCountList]
  | g, idx, r :: rs => by
    have ih := simplifyMembers_refCount g idx rs
    rw [simplifyMembers]
    cases hr : simplify_rule g idx r with
    | none =>
      simp only [List.zipWith_cons_cons, List.all_cons, Option.getD_none,
        refCountList, Option.isNone_none, Bool.true_and]
      exact ⟨by omega, fun h => by have := ih.2 h; omega⟩
    | some r0 =>
      have hlt := simplify_rule_refCount g idx r r0 hr
      simp only [List.zipWith_cons_cons, List.all_cons, Option.getD_some,
        refCountList, Option.isNone_some, Bool.false_and]
      exact ⟨by omega, fun _ => by omega⟩

end

theorem sum_map_lt_of_exists {α : Type} (l : List α) (f h : α → Nat)
    (hle : ∀ x ∈ l, f x ≤ h x) (hex : ∃ x ∈ l, f x < h x) :
    (l.map f).sum < (l.map h).sum := by
  induction l with
  | nil => rcases hex with ⟨x, hx, _⟩; cases hx
  | cons a as ih =>
    simp only [List.map_cons, List.sum_cons]
    rcases hex with ⟨x, hx, hxlt⟩
    rcases List.mem_cons.1 hx with rfl | hx
    · have : (as.map f).sum ≤ (as.map h).sum := by
        apply List.sum_le_sum
        intro y hy
        exact hle y (List.mem_cons_of_mem _ hy)
      omega
    · have hha := hle a (List.mem_cons_self _ _)
      have : (as.map f).sum < (as.map h).sum :=
        ih (fun y hy => hle y (List.mem_cons_of_mem _ hy)) ⟨x, hx, hxlt⟩
      omega

theorem measureRS_simplifyStep_lt {g : RuleSet}
    (h : changesExist g = true) : measureRS (simplifyStep g) < measureRS g := by
  have hm : measureRS (simplifyStep g) =
      (g.map fun p => refCount (applySimp g p.1 p.2)).sum := by
    simp [measureRS, simplifyStep, List.map_map, Function.comp_def]
  rw [hm, measureRS]
  apply sum_map_lt_of_exists
  · intro p _
    unfold applySimp
    cases hp : simplify_rule g p.1 p.2 with
    | none => simp
    | some r' =>
      simp only [Option.getD]
      exact Nat.le_of_lt (simplify_rule_refCount _ _ _ _ hp)
  · rcases List.any_eq_true.1 h with ⟨p, hp, hsome⟩
    refine ⟨p, hp, ?_⟩
    unfold applySimp
    cases hq : simplify_rule g p.1 p.2 with
    | none => rw [hq] at hsome; simp at hsome
    | some r' =>
      simp only [Option.getD]
      exact simplify_rule_refCount _ _ _ _ hq

/-- `RuleSet::simplify`: repeat passes until one records no change. -/
def simplify (g : RuleSet) : RuleSet :=
  if h : changesExist g = true then simplify (simplifyStep g) else g
termination_by measureRS g
decreasing_by exact measureRS_simplifyStep_lt h

/-- Result of one of the nom parsers making up the grammar parser:
`ok rest value` is `Ok((rest, value))`, `err` is `Err(Err::Error(_))`
(`Err::Failure` never arises there), and `panic` is a Rust panic (the
`unwrap` in `Rule::parse_ref`). -/
inductive GRes (α : Type) where
  | ok : List Char → α → GRes α
  | err : GRes α
  | panic : GRes α
  deriving DecidableEq

/-- `nom::character::complete::char(c)`. -/
def charP (c : Char) : List Char → GRes Unit
  | x :: rest => if x = c then GRes.ok rest () else GRes.err
  | [] => GRes.err

/-- The `take_while1` shape shared by `digit1`, `alpha1`, `space1`. -/
def takeWhile1 (p : Char → Bool) (s : List Char) : GRes (List Char) :=
  if s.takeWhile p = [] then GRes.err else GRes.ok (s.dropWhile p) (s.takeWhile p)

/-- `nom::character::complete::digit1`. -/
def digit1 (s : List Char) : GRes (List Char) :=
  takeWhile1 Char.isDigit s

/-- `nom::character::complete::alpha1`. -/
def alpha1 (s : List Char) : GRes (List Char) :=
  takeWhile1 Char.isAlpha s

/-- `nom::character::complete::space1` (spaces and tabs). -/
def space1 (s : List Char) : GRes Unit :=
  match takeWhile1 (fun c => c == ' ' || c == '\t') s with
  | GRes.ok rest _ => GRes.ok rest ()
  | _ => GRes.err

/-- `nom::bytes::complete::tag(t)`. -/
def tagP (t : List Char) (s : List Char) : GRes Unit :=
  if t <+: s then GRes.ok (s.drop t.length) () else GRes.err

/-- `nom::character::complete::line_ending`: `"\n"` or `"\r\n"`. -/
def lineEnding : List Char → GRes Unit
  | '\n' :: rest => GRes.ok rest ()
  | '\r' :: '\n' :: rest => GRes.ok rest ()
  | _ => GRes.err

/-- `usize::MAX` of the 64-bit target the crate is built for. -/
def usizeMax : Nat := 2 ^ 64 - 1

/-- Value of a decimal digit string (what `usize::from_str` computes
when it fits). -/
def natOfDigits (ds : List Char) : Nat :=
  ds.foldl (fun a c => 10 * a + (c.toNat - 48)) 0

/-- Loop of `nom::multi::separated_list1` after the first item: each
further iteration parses the separator (erroring out if it consumed
nothing, nom's infinite-loop guard) and then an item; a plain error
ends the list.  The fuel bounds the iteration count; since every
iteration consumes at least one character, `input length + 1` is
enough, so the fueled function agrees with nom's unbounded loop. -/
def sepList1Go {α : Type} (sep : List Char → GRes Unit)
    (item : List Char → GRes α) :
    Nat → List Char → List α → GRes (List α)
  | 0, _, _ => GRes.err
  | fuel + 1, i, acc =>
    match sep i with
    | GRes.err => GRes.ok i acc
    | GRes.panic => GRes.panic
    | GRes.ok i1 _ =>
      if i1.length = i.length then GRes.err
      else
        match item i1 with
        | GRes.err => GRes.ok i acc
        | GRes.panic => GRes.panic
        | GRes.ok i2 a => sepList1Go sep item fuel i2 (acc ++ [a])

/-- `nom::multi::separated_list1(sep, item)`. -/
def sepList1 {α : Type} (sep : List Char → GRes Unit)
    (item : List Char → GRes α) (s : List Char) : GRes (List α) :=
  match item s with
  | GRes.err => GRes.err
  | GRes.panic => GRes.panic
  | GRes.ok s1 a => sepList1Go sep item (s1.length + 1) s1 [a]

/-- `Rule::parse_lit`: a double-quoted run of letters. -/
def parse_lit (s : List Char) : GRes Rule :=
  match charP '"' s with
  | GRes.ok s1 _ =>
    match alpha1 s1 with
    | GRes.ok s2 t =>
      match charP '"' s2 with
      | GRes.ok s3 _ => GRes.ok s3 (Rule.Lit t)
      | GRes.err => GRes.err
      | GRes.panic => GRes.panic
    | GRes.err => GRes.err
    | GRes.panic => GRes.panic
  | GRes.err => GRes.err
  | GRes.panic => GRes.panic

/-- `Rule::parse_ref`: digits, converted with
`x.parse().map(Self::Ref).unwrap()` — the conversion error of a value
exceeding `usize::MAX` is unwrapped into a panic. -/
def parse_ref (s : List Char) : GRes Rule :=
  match digit1 s with
  | GRes.ok rest ds =>
    if natOfDigits ds ≤ usizeMax then GRes.ok rest (Rule.Ref (natOfDigits ds))
    else GRes.panic
  | GRes.err => GRes.err
  | GRes.panic => GRes.panic

/-- `Rule::parse_sequence`: `separated_list1(space1, parse_ref)`. -/
def parse_sequence (s : List Char) : GRes Rule :=
  match sepList1 space1 parse_ref s with
  | GRes.ok rest v => GRes.ok rest (Rule.Sequence v)
  | GRes.err => GRes.err
  | GRes.panic => GRes.panic

/-- `Rule::parse_alternative`: `separated_list1(tag(" | "),
parse_sequence)`, a single operand degenerating to that operand. -/
def parse_alternative (s : List Char) : GRes Rule :=
  match sepList1 (tagP [' ', '|', ' ']) parse_sequence s with
  | GRes.ok rest [r] => GRes.ok rest r
  | GRes.ok rest v => GRes.ok rest (Rule.Alternative v)
  | GRes.err => GRes.err
  | GRes.panic => GRes.panic

/-- `Rule::parse`: `alt((parse_alternative, parse_sequence, parse_lit,
parse_ref))` — each plain error falls through to the next branch. -/
def Rule.parse (s : List Char) : GRes Rule :=
  match parse_alternative s with
  | GRes.err =>
    match parse_sequence s with
    | GRes.err =>
      match parse_lit s with
      | GRes.err => parse_ref s
      | o => o
    | o => o
  | o => o

/-- One grammar line: `separated_pair(map_res(digit1, usize::from_str),
tag(": "), Rule::parse)` — here the conversion error of an oversized id
becomes a plain parse error (`map_res`), not a panic. -/
def parse_line (s : List Char) : GRes (Nat × Rule) :=
  match digit1 s with
  | GRes.ok s1 ds =>
    if natOfDigits ds ≤ usizeMax then
      match tagP [':', ' '] s1 with
      | GRes.ok s2 _ =>
        match Rule.parse s2 with
        | GRes.ok s3 r => GRes.ok s3 (natOfDigits ds, r)
        | GRes.err => GRes.err
        | GRes.panic => GRes.panic
      | GRes.err => GRes.err
      | GRes.panic => GRes.panic
    else GRes.err
  | GRes.err => GRes.err
  | GRes.panic => GRes.panic

/-- `RuleSet::parse` (the spec's `compile`): newline-separated grammar
lines terminated by a blank line, collected into the id-keyed map; on
success the unparsed remainder (the candidate lines) is returned
alongside.  Failure carries no rule set at all. -/
def RuleSet.parse (s : List Char) : GRes RuleSet :=
  match sepList1 lineEnding parse_line s with
  | GRes.ok s1 lines =>
    match tagP ['\n', '\n'] s1 with
    | GRes.ok s2 _ =>
      GRes.ok s2 (lines.foldl (fun m p => RuleSet.insertRule m p.1 p.2) [])
    | GRes.err => GRes.err
    | GRes.panic => GRes.panic
  | GRes.err => GRes.err
  | GRes.panic => GRes.panic

/-- Result of `RuleSet::parse_with_rule` (a `Result<(), RuleError>`,
with the panic made explicit). -/
inductive MatchResult where
  | ok : MatchResult
  | ruleNotFound : MatchResult
  | parseError : MatchResult
  | panicked : MatchResult
  deriving DecidableEq, Repr

/-- Interpretation of a parser outcome by
`all_consuming(...).finish()`: success must consume the whole input,
any leftover or error becomes `RuleError::ParsingError`. -/
def interp : POutcome → MatchResult
  | POutcome.ok rest => if rest = [] then MatchResult.ok else MatchResult.parseError
  | POutcome.err => MatchResult.parseError
  | POutcome.fail => MatchResult.parseError
  | POutcome.panic => MatchResult.panicked

/-- `RuleSet::parse_with_rule`: look the start rule up (absence is
`RuleError::RuleNotFound`), run it under `all_consuming`. -/
def parse_with_rule (g : RuleSet) (fuel : Nat) (idx : Nat) (s : List Char) :
    Option MatchResult :=
  match RuleSet.find? g idx with
  | none => some MatchResult.ruleNotFound
  | some r => (runRule g fuel r s).map interp

/-! ### Fuel monotonicity of the matcher -/

theorem dynTuple_mono {f f' : Rule → List Char → Option POutcome}
    (hf : ∀ r s o, f r s = some o → f' r s = some o) :
    ∀ (v : List Rule) (s : List Char) (o : POutcome),
      dynTuple f v s = some o → dynTuple f' v s = some o := by
  intro v
  induction v with
  | nil => intro s o h; exact h
  | cons r rs ih =>
    intro s o h
    rw [dynTuple] at h ⊢
    cases hr : f r s with
    | none => rw [hr] at h; exact absurd h (by simp)
    | some o1 =>
      rw [hr] at h
      rw [hf r s o1 hr]
      cases o1 with
      | ok s' => exact ih s' o h
      | err => exact h
      | fail => exact h
      | panic => exact h

theorem dynChoice_mono {f f' : Rule → List Char → Option POutcome}
    (hf : ∀ r s o, f r s = some o → f' r s = some o) :
    ∀ (v : List Rule) (s : List Char) (o : POutcome),
      dynChoice f v s = some o → dynChoice f' v s = some o := by
  intro v
  induction v with
  | nil => intro s o h; exact h
  | cons r rs ih =>
    intro s o h
    cases rs with
    | nil => exact hf r s o h
    | cons r' rs' =>
      rw [dynChoice] at h ⊢
      cases hr : f r s with
      | none => rw [hr] at h; exact absurd h (by simp)
      | some o1 =>
        rw [hr] at h
        rw [hf r s o1 hr]
        cases o1 with
        | ok s' => exact h
        | err => exact ih s o h
        | fail => exact ih s o h
        | panic => exact h

theorem runRule_mono_succ (g : RuleSet) :
    ∀ (n : Nat) (r : Rule) (s : List Char) (o : POutcome),
      runRule g n r s = some o → runRule g (n + 1) r s = some o := by
  intro n
  induction n with
  | zero => intro r s o h; exact absurd h (by simp [runRule])
  | succ n ih =>
    intro r s o h
    cases r with
    | Lit t => exact h
    | Ref i =>
      rw [runRule] at h ⊢
      cases hf : RuleSet.find? g i with
      | none => rw [hf] at h; exact h
      | some r' => rw [hf] at h; exact ih r' s o h
    | Sequence v =>
      rw [runRule] at h ⊢
      exact dynTuple_mono ih v s o h
    | Alternative v =>
      rw [runRule] at h ⊢
      exact dynChoice_mono ih v s o h

theorem runRule_mono (g : RuleSet) {n m : Nat} (hnm : n ≤ m) :
    ∀ {r : Rule} {s : List Char} {o : POutcome},
      runRule g n r s = some o → runRule g m r s = some o := by
  induction hnm with
  | refl => intro r s o h; exact h
  | step _ ih =>
    intro r s o h
    exact runRule_mono_succ g _ _ _ _ (ih h)

/-- Two successful runs at arbitrary fuels agree (the Rust function is
deterministic; fuel only cuts computations short). -/
theorem runRule_agree (g : RuleSet) {n m : Nat} {r : Rule} {s : List Char}
    {o o' : POutcome} (h : runRule g n r s = some o)
    (h' : runRule g m r s = some o') : o = o' := by
  have h1 := runRule_mono g (Nat.le_max_left n m) h
  have h2 := runRule_mono g (Nat.le_max_right n m) h'
  rw [h1] at h2
  exact Option.some_inj.1 h2

theorem parse_with_rule_of_find_none {g : RuleSet} {i : Nat}
    (hf : RuleSet.find? g i = none) (n : Nat) (s : List Char) :
    parse_with_rule g n i s = some MatchResult.ruleNotFound := by
  unfold parse_with_rule
  rw [hf]

theorem parse_with_rule_of_find_some {g : RuleSet} {i : Nat} {r : Rule}
    (hf : RuleSet.find? g i = some r) (n : Nat) (s : List Char) :
    parse_with_rule g n i s = (runRule g n r s).map interp := by
  unfold parse_with_rule
  rw [hf]

theorem parse_with_rule_mono (g : RuleSet) {n m : Nat} (hnm : n ≤ m)
    {i : Nat} {s : List Char} {res : MatchResult}
    (h : parse_with_rule g n i s = some res) :
    parse_with_rule g m i s = some res := by
  cases hf : RuleSet.find? g i with
  | none => rw [parse_with_rule_of_find_none hf] at h ⊢; exact h
  | some r =>
    rw [parse_with_rule_of_find_some hf] at h ⊢
    cases ho : runRule g n r s with
    | none => rw [ho] at h; exact absurd h (by simp)
    | some o => rw [ho] at h; rw [runRule_mono g hnm ho]; exact h

/-! ### Ordered-choice characterization -/

/-- The outcome is a nom `Err` (`Error` or `Failure`): the two shapes
`DynamicAlt::choice` falls through on. -/
def isErrR (o : Option POutcome) : Prop :=
  o = some POutcome.err ∨ o = some POutcome.fail

instance (o : Option POutcome) : Decidable (isErrR o) := by
  unfold isErrR
  infer_instance

theorem dynChoice_ok_iff (f : Rule → List Char → Option POutcome) :
    ∀ (bs : List Rule), bs ≠ [] → ∀ (s rest : List Char),
      (dynChoice f bs s = some (POutcome.ok rest) ↔
        ∃ k, ∃ hk : k < bs.length,
          f bs[k] s = some (POutcome.ok rest) ∧
          ∀ j, (hj : j < bs.length) → j < k → isErrR (f bs[j] s)) := by
  intro bs
  induction bs with
  | nil => intro h; exact absurd rfl h
  | cons r rs ih =>
    intro _ s rest
    cases rs with
    | nil =>
      constructor
      · intro h
        exact ⟨0, by simp, h, fun j hj hjk => by omega⟩
      · rintro ⟨k, hk, hok, -⟩
        simp only [List.length_cons, List.length_nil] at hk
        have hk0 : k = 0 := by omega
        subst hk0
        exact hok
    | cons r' rs' =>
      rw [dynChoice]
      cases hr : f r s with
      | none =>
        constructor
        · intro h; exact absurd h (by simp)
        · rintro ⟨k, hk, hok, hearl⟩
          cases k with
          | zero => rw [List.getElem_cons_zero, hr] at hok; cases hok
          | succ k' =>
            have h0 := hearl 0 (by simp) (by omega)
            rw [List.getElem_cons_zero, hr] at h0
            rcases h0 with h0 | h0 <;> cases h0
      | some o1 =>
        cases o1 with
        | ok s' =>
          constructor
          · intro h
            have hs : s' = rest := by
              have := Option.some_inj.1 h
              cases this
              rfl
            subst hs
            exact ⟨0, by simp, by rw [List.getElem_cons_zero, hr],
              fun j hj hjk => by omega⟩
          · rintro ⟨k, hk, hok, hearl⟩
            cases k with
            | zero =>
              rw [List.getElem_cons_zero, hr] at hok
              have := Option.some_inj.1 hok
              cases this
              rfl
            | succ k' =>
              have h0 := hearl 0 (by simp) (by omega)
              rw [List.getElem_cons_zero, hr] at h0
              rcases h0 with h0 | h0 <;> cases h0
        | panic =>
          constructor
          · intro h; cases Option.some_inj.1 h
          · rintro ⟨k, hk, hok, hearl⟩
            cases k with
            | zero => rw [List.getElem_cons_zero, hr] at hok; cases Option.some_inj.1 hok
            | succ k' =>
              have h0 := hearl 0 (by simp) (by omega)
              rw [List.getElem_cons_zero, hr] at h0
              rcases h0 with h0 | h0 <;> cases Option.some_inj.1 h0
        | err =>
          rw [ih (by simp) s rest]
          constructor
          · rintro ⟨k, hk, hok, hearl⟩
            refine ⟨k + 1, by simp only [List.length_cons] at hk ⊢; omega,
              by rwa [List.getElem_cons_succ], ?_⟩
            intro j hj hjk
            cases j with
            | zero => rw [List.getElem_cons_zero, hr]; left; rfl
            | succ j' =>
              rw [List.getElem_cons_succ]
              exact hearl j' (by simp only [List.length_cons] at hj ⊢; omega)
                (by omega)
          · rintro ⟨k, hk, hok, hearl⟩
            cases k with
            | zero => rw [List.getElem_cons_zero, hr] at hok; cases Option.some_inj.1 hok
            | succ k' =>
              rw [List.getElem_cons_succ] at hok
              refine ⟨k', by simp only [List.length_cons] at hk ⊢; omega, hok, ?_⟩
              intro j hj hjk
              have := hearl (j + 1)
                (by simp only [List.length_cons] at hj ⊢; omega) (by omega)
              rwa [List.getElem_cons_succ] at this
        | fail =>
          rw [ih (by simp) s rest]
          constructor
          · rintro ⟨k, hk, hok, hearl⟩
            refine ⟨k + 1, by simp only [List.length_cons] at hk ⊢; omega,
              by rwa [List.getElem_cons_succ], ?_⟩
            intro j hj hjk
            cases j with
            | zero => rw [List.getElem_cons_zero, hr]; right; rfl
            | succ j' =>
              rw [List.getElem_cons_succ]
              exact hearl j' (by simp only [List.length_cons] at hj ⊢; omega)
                (by omega)
          · rintro ⟨k, hk, hok, hearl⟩
            cases k with
            | zero => rw [List.getElem_cons_zero, hr] at hok; cases Option.some_inj.1 hok
            | succ k' =>
              rw [List.getElem_cons_succ] at hok
              refine ⟨k', by simp only [List.length_cons] at hk ⊢; omega, hok, ?_⟩
              intro j hj hjk
              have := hearl (j + 1)
                (by simp only [List.length_cons] at hj ⊢; omega) (by omega)
              rwa [List.getElem_cons_succ] at this

theorem dynChoice_err (f : Rule → List Char → Option POutcome) :
    ∀ (bs : List Rule) (hne : bs ≠ []) (s : List Char),
      isErrR (dynChoice f bs s) →
      (∀ j, (hj : j < bs.length) → isErrR (f bs[j] s)) ∧
      dynChoice f bs s = f (bs.getLast hne) s := by
  intro bs
  induction bs with
  | nil => intro h; exact absurd rfl h
  | cons r rs ih =>
    intro hne s herr
    cases rs with
    | nil =>
      refine ⟨?_, rfl⟩
      intro j hj
      simp only [List.length_cons, List.length_nil] at hj
      interval_cases j
      exact herr
    | cons r' rs' =>
      rw [dynChoice] at herr ⊢
      cases hr : f r s with
      | none => rw [hr] at herr; rcases herr with h | h <;> cases h
      | some o1 =>
        rw [hr] at herr
        cases o1 with
        | ok s' => rcases herr with h | h <;> cases Option.some_inj.1 h
        | panic => rcases herr with h | h <;> cases Option.some_inj.1 h
        | err =>
          have ihc := ih (by simp) s herr
          rw [List.getLast_cons (by simp : (r' :: rs') ≠ [])]
          refine ⟨?_, ihc.2⟩
          intro j hj
          cases j with
          | zero => rw [List.getElem_cons_zero, hr]; left; rfl
          | succ j' =>
            rw [List.getElem_cons_succ]
            exact ihc.1 j' (by simp only [List.length_cons] at hj ⊢; omega)
        | fail =>
          have ihc := ih (by simp) s herr
          rw [List.getLast_cons (by simp : (r' :: rs') ≠ [])]
          refine ⟨?_, ihc.2⟩
          intro j hj
          cases j with
          | zero => rw [List.getElem_cons_zero, hr]; right; rfl
          | succ j' =>
            rw [List.getElem_cons_succ]
            exact ihc.1 j' (by simp only [List.length_cons] at hj ⊢; omega)

theorem parse_with_rule_agree (g : RuleSet) {n m i : Nat} {s : List Char}
    {res res' : MatchResult} (h : parse_with_rule g n i s = some res)
    (h' : parse_with_rule g m i s = some res') : res = res' := by
  have h1 := parse_with_rule_mono g (Nat.le_max_left n m) h
  have h2 := parse_with_rule_mono g (Nat.le_max_right n m) h'
  rw [h1] at h2
  exact Option.some_inj.1 h2

/-! ### Concrete scenario rule sets -/

/-- Scenario B grammar text: `0: 1 | 2`, `1: "a"`, `2: "b"`. -/
def scenarioBText : List Char :=
  ("0: 1 | 2\n1: \"a\"\n2: \"b\"\n\n").toList

/-- The rule set compiled from the Scenario B grammar. -/
def gB : RuleSet :=
  match RuleSet.parse scenarioBText with
  | GRes.ok _ g => g
  | _ => []

/-- The rule patched over id 8 in `AdventDay19::run`:
`Alternative([Ref(42), Sequence([Ref(42), Ref(8)])])`. -/
def rule8patch : Rule :=
  Rule.Alternative [Rule.Ref 42, Rule.Sequence [Rule.Ref 42, Rule.Ref 8]]

/-- Scenario C rule set: the patched rule 8 merged into a rule set
where rule 42 is `Literal("x")`. -/
def gC : RuleSet :=
  RuleSet.merge_rules [(42, Rule.Lit ['x'])] [(8, rule8patch)]

/-- Scenario for C3: an absent reference inside a non-final branch of
an `Alternative`. -/
def gD : RuleSet :=
  [(0, Rule.Alternative [Rule.Ref 99, Rule.Lit ['a']])]

/-! ### Claims -/

/-- **C1, counterexample.**  In the merged Scenario C rule set the
candidate `"xxx"` does *not* match rule 8 at any call depth — but the
claim says it matches: the first branch `Ref(42)` of the patched
alternative succeeds after one `"x"`, `DynamicAlt::choice` commits to
it, and the `all_consuming` wrapper rejects the leftover `"xx"`. -/
theorem c1_counterexample :
    parse_with_rule gC 10 8 ['x', 'x', 'x'] = some MatchResult.parseError ∧
    ¬ ∃ n, parse_with_rule gC n 8 ['x', 'x', 'x'] = some MatchResult.ok := by
  have h10 : parse_with_rule gC 10 8 ['x', 'x', 'x'] =
      some MatchResult.parseError := by decide
  refine ⟨h10, ?_⟩
  rintro ⟨n, h⟩
  cases parse_with_rule_agree gC h h10

/-- **C1, amended.**  In the merged Scenario C rule set, `"x"` matches
rule 8 (the alternative commits to its first branch `Ref(42)`), while
`"xxx"` and `""` do not match; on `"xxx"` the rule consumes exactly the
first `"x"`, leaving `"xx"` to the full-consumption check. -/
theorem c1_amended :
    (∃ n, parse_with_rule gC n 8 ['x'] = some MatchResult.ok) ∧
    (¬ ∃ n, parse_with_rule gC n 8 ['x', 'x', 'x'] = some MatchResult.ok) ∧
    (¬ ∃ n, parse_with_rule gC n 8 [] = some MatchResult.ok) ∧
    (∃ n, runRule gC n rule8patch ['x', 'x', 'x'] =
      some (POutcome.ok ['x', 'x'])) := by
  refine ⟨⟨10, by decide⟩, ?_, ?_, ⟨10, by decide⟩⟩
  · rintro ⟨n, h⟩
    have h10 : parse_with_rule gC 10 8 ['x', 'x', 'x'] =
        some MatchResult.parseError := by decide
    cases parse_with_rule_agree gC h h10
  · rintro ⟨n, h⟩
    have h10 : parse_with_rule gC 10 8 [] = some MatchResult.parseError := by
      decide
    cases parse_with_rule_agree gC h h10

/-- **C2.**  `parse_with_rule` succeeds exactly when the start rule
consumes the entire candidate (`all_consuming`: a proper prefix match
is a failure); and on the Scenario B grammar `"a"` and `"b"` match rule
0 while `"ab"` does not. -/
theorem c2_full_consumption :
    (∀ (g : RuleSet) (n i : Nat) (s : List Char) (r : Rule),
      RuleSet.find? g i = some r →
      (parse_with_rule g n i s = some MatchResult.ok ↔
        runRule g n r s = some (POutcome.ok []))) ∧
    parse_with_rule gB 10 0 ['a'] = some MatchResult.ok ∧
    parse_with_rule gB 10 0 ['b'] = some MatchResult.ok ∧
    parse_with_rule gB 10 0 ['a', 'b'] = some MatchResult.parseError := by
  refine ⟨?_, by decide, by decide, by decide⟩
  intro g n i s r hr
  rw [parse_with_rule_of_find_some hr]
  cases ho : runRule g n r s with
  | none => simp
  | some o =>
    cases o with
    | ok rest =>
      simp only [Option.map_some', interp]
      constructor
      · intro h
        split at h
        · rename_i hrest; rw [hrest]
        · cases Option.some_inj.1 h
      · intro h
        have : rest = [] := by
          have := Option.some_inj.1 h
          cases this
          rfl
        rw [this]
        simp
    | err => simp [interp]
    | fail => simp [interp]
    | panic => simp [interp]

/-- Witness for C2 at the Scenario B grammar, start rule 0,
candidate `"ab"`. -/
theorem c2_witness :
    parse_with_rule gB 10 0 ['a', 'b'] = some MatchResult.ok ↔
      runRule gB 10 (Rule.Alternative [Rule.Sequence [Rule.Ref 1],
        Rule.Sequence [Rule.Ref 2]]) ['a', 'b'] = some (POutcome.ok []) :=
  c2_full_consumption.1 gB 10 0 ['a', 'b'] _ (by decide)

/-- **C3, counterexample.**  Evaluation reaches the absent
`Reference(99)` (it produces the fatal `Err::Failure`), yet the whole
match attempt *succeeds*: `DynamicAlt::choice` discards the failure of
the non-final branch and the second branch matches. -/
theorem c3_counterexample :
    runRule gD 9 (Rule.Ref 99) ['a'] = some POutcome.fail ∧
    parse_with_rule gD 10 0 ['a'] = some MatchResult.ok := by
  constructor <;> decide

/-- **C3, amended.**  A `Reference` to an id absent from the rule set
fails immediately where it is evaluated with the fatal `Failure`
outcome — distinct from the ordinary non-match `Error` — and that
failure aborts an enclosing `Sequence`; when the *start* id itself is
absent the result is `RuleNotFound` for every candidate.  But inside a
non-final branch of an `Alternative` the failure is discarded like an
ordinary non-match and the remaining branches are tried, so the whole
match attempt need not fail. -/
theorem c3_amended :
    (∀ (g : RuleSet) (n i : Nat) (s : List Char),
      RuleSet.find? g i = none →
      runRule g (n + 1) (Rule.Ref i) s = some POutcome.fail) ∧
    POutcome.fail ≠ POutcome.err ∧
    (∀ (g : RuleSet) (n i : Nat) (s : List Char),
      RuleSet.find? g i = none →
      parse_with_rule g n i s = some MatchResult.ruleNotFound) ∧
    (∀ (g : RuleSet) (n : Nat) (r : Rule) (rs : List Rule) (s : List Char),
      runRule g n r s = some POutcome.fail →
      runRule g (n + 1) (Rule.Sequence (r :: rs)) s = some POutcome.fail) ∧
    (∀ (g : RuleSet) (n : Nat) (r r' : Rule) (rs : List Rule) (s : List Char),
      runRule g n r s = some POutcome.fail →
      runRule g (n + 1) (Rule.Alternative (r :: r' :: rs)) s =
        runRule g (n + 1) (Rule.Alternative (r' :: rs)) s) := by
  refine ⟨?_, by decide, ?_, ?_, ?_⟩
  · intro g n i s hf
    rw [runRule, hf]
  · intro g n i s hf
    exact parse_with_rule_of_find_none hf n s
  · intro g n r rs s hr
    rw [runRule, dynTuple, hr]
  · intro g n r r' rs s hr
    rw [runRule, dynChoice, hr, runRule]

/-- Witness for C3's amended statement at the Scenario D set-up. -/
theorem c3_witness :
    runRule gD 1 (Rule.Ref 99) ['a'] = some POutcome.fail ∧
    parse_with_rule gD 3 7 ['a'] = some MatchResult.ruleNotFound := by
  constructor
  · exact c3_amended.1 gD 0 99 ['a'] (by decide)
  · exact c3_amended.2.2.1 gD 3 7 ['a'] (by decide)

/-- **C4.**  `DynamicAlt::choice` semantics of an `Alternative`: every
branch is tried at the original cursor in declaration order; the
alternative succeeds with remainder `rest` exactly when some branch
succeeds with `rest` and all earlier branches fail; when it fails,
every branch failed and the result is the last branch's. -/
theorem c4_alternative_order (g : RuleSet) (n : Nat) (bs : List Rule)
    (hne : bs ≠ []) (s : List Char) :
    (∀ rest,
      runRule g (n + 1) (Rule.Alternative bs) s = some (POutcome.ok rest) ↔
        ∃ k, ∃ hk : k < bs.length,
          runRule g n bs[k] s = some (POutcome.ok rest) ∧
          ∀ j, (hj : j < bs.length) → j < k →
            isErrR (runRule g n bs[j] s)) ∧
    (isErrR (runRule g (n + 1) (Rule.Alternative bs) s) →
      (∀ j, (hj : j < bs.length) → isErrR (runRule g n bs[j] s)) ∧
      runRule g (n + 1) (Rule.Alternative bs) s =
        runRule g n (bs.getLast hne) s) := by
  constructor
  · intro rest
    rw [runRule]
    exact dynChoice_ok_iff (runRule g n) bs hne s rest
  · intro herr
    rw [runRule] at herr ⊢
    exact dynChoice_err (runRule g n) bs hne s herr

/-- Witness for C4 at the Scenario B alternative on candidate `"b"`. -/
theorem c4_witness :
    runRule gB 10 (Rule.Alternative [Rule.Sequence [Rule.Ref 1],
        Rule.Sequence [Rule.Ref 2]]) ['b'] = some (POutcome.ok []) ↔
      ∃ k, ∃ hk : k < ([Rule.Sequence [Rule.Ref 1],
          Rule.Sequence [Rule.Ref 2]] : List Rule).length,
        runRule gB 9 ([Rule.Sequence [Rule.Ref 1],
          Rule.Sequence [Rule.Ref 2]] : List Rule)[k] ['b'] =
          some (POutcome.ok []) ∧
        ∀ j, (hj : j < ([Rule.Sequence [Rule.Ref 1],
            Rule.Sequence [Rule.Ref 2]] : List Rule).length) → j < k →
          isErrR (runRule gB 9 ([Rule.Sequence [Rule.Ref 1],
            Rule.Sequence [Rule.Ref 2]] : List Rule)[j] ['b']) :=
  (c4_alternative_order gB 9 [Rule.Sequence [Rule.Ref 1],
    Rule.Sequence [Rule.Ref 2]] (by decide) ['b']).1 []

/-- **C7.**  The malformed grammar line `"5 bad syntax"` makes
`RuleSet::parse` fail with a syntax error; the error constructor of the
result type carries no rule set, so no partial rule set built from
well-formed lines can be returned. -/
theorem c7_syntax_error :
    RuleSet.parse ("5 bad syntax\n\n").toList = GRes.err := by decide

/-- **C9.**  A syntactically well-formed grammar line whose body is the
digit string for `2^64` (one more than `usize::MAX`) makes the compile
panic: `Rule::parse_ref` unwraps the failed integer conversion, where
an oversized id *left* of the colon would have been a graceful syntax
error. -/
theorem c9_overflow_panics :
    RuleSet.parse ("0: 18446744073709551616\n\n").toList = GRes.panic ∧
    usizeMax < 18446744073709551616 ∧
    RuleSet.parse ("18446744073709551616: \"a\"\n\n").toList = GRes.err := by
  refine ⟨by decide, by decide, by decide⟩

/-! ### Merge (C8) -/

theorem find_insertRule (l : RuleSet) (i : Nat) (r : Rule) (j : Nat) :
    RuleSet.find? (RuleSet.insertRule l i r) j =
      if j = i then some r else RuleSet.find? l j := by
  induction l with
  | nil => simp [RuleSet.insertRule, RuleSet.find?]
  | cons p t ih =>
    obtain ⟨k, v⟩ := p
    rw [RuleSet.insertRule]
    by_cases hik : i < k
    · rw [if_pos hik]
      simp only [RuleSet.find?]
    · rw [if_neg hik]
      by_cases hik2 : i = k
      · subst hik2
        rw [if_pos rfl]
        simp only [RuleSet.find?]
        by_cases hj : j = i
        · rw [if_pos hj, if_pos hj]
        · rw [if_neg hj, if_neg hj, if_neg hj]
      · rw [if_neg hik2]
        simp only [RuleSet.find?, ih]
        split_ifs with h1 h2 <;> first | rfl | omega

/-- The last rule an entry list assigns to an id, if any (later
entries of `extend` overwrite earlier ones). -/
def lastAssignment (entries : List (Nat × Rule)) (i : Nat) : Option Rule :=
  entries.foldl (fun acc p => if p.1 = i then some p.2 else acc) none

theorem lastAssignment_foldl (i : Nat) :
    ∀ (es : List (Nat × Rule)) (a : Option Rule),
      es.foldl (fun acc p => if p.1 = i then some p.2 else acc) a =
        match lastAssignment es i with
        | some r => some r
        | none => a := by
  intro es
  induction es with
  | nil => intro a; rfl
  | cons e es ih =>
    intro a
    rw [lastAssignment, List.foldl_cons, List.foldl_cons, ih, ih]
    cases hlast : lastAssignment es i with
    | some r => rfl
    | none =>
      dsimp only
      by_cases he : e.1 = i
      · rw [if_pos he, if_pos he]
      · rw [if_neg he, if_neg he]

theorem lastAssignment_cons (e : Nat × Rule) (es : List (Nat × Rule))
    (i : Nat) :
    lastAssignment (e :: es) i =
      match lastAssignment es i with
      | some r => some r
      | none => if e.1 = i then some e.2 else none := by
  rw [lastAssignment, List.foldl_cons, lastAssignment_foldl]

/-- **C8.**  `merge_rules` maps every id assigned by the entry list to
its last assigned rule and leaves every other id untouched. -/
theorem c8_merge_frame :
    ∀ (entries : List (Nat × Rule)) (g : RuleSet) (i : Nat),
      RuleSet.find? (RuleSet.merge_rules g entries) i =
        match lastAssignment entries i with
        | some r => some r
        | none => RuleSet.find? g i := by
  intro entries
  induction entries with
  | nil => intro g i; rfl
  | cons e es ih =>
    intro g i
    rw [RuleSet.merge_rules, List.foldl_cons]
    have heq : es.foldl (fun g e => RuleSet.insertRule g e.1 e.2)
        (RuleSet.insertRule g e.1 e.2) =
        RuleSet.merge_rules (RuleSet.insertRule g e.1 e.2) es := rfl
    rw [heq, ih, lastAssignment_cons]
    cases hlast : lastAssignment es i with
    | some r => rfl
    | none =>
      dsimp only
      rw [find_insertRule]
      by_cases hi : e.1 = i
      · rw [if_pos hi.symm, hi, if_pos rfl]
      · rw [if_neg (fun h => hi h.symm), if_neg hi]

/-! ### Well-formedness of compiled rule sets (C10) -/

mutual

/-- Every `Sequence`/`Alternative` node has a non-empty member list
(what `separated_list1` guarantees for compiled rules). -/
def wfRule : Rule → Bool
  | Rule.Lit _ => true
  | Rule.Ref _ => true
  | Rule.Sequence v => !v.isEmpty && wfListRule v
  | Rule.Alternative v => !v.isEmpty && wfListRule v

def wfListRule : List Rule → Bool
  | [] => true
  | r :: rs => wfRule r && wfListRule rs

end

/-- All rules of a table are well-formed. -/
def wfRS (g : RuleSet) : Bool :=
  g.all fun p => wfRule p.2

theorem wfListRule_mem {v : List Rule} (h : wfListRule v = true) :
    ∀ r ∈ v, wfRule r = true := by
  induction v with
  | nil => intro r hr; cases hr
  | cons a as ih =>
    rw [wfListRule, Bool.and_eq_true] at h
    intro r hr
    rcases List.mem_cons.1 hr with rfl | hr
    · exact h.1
    · exact ih h.2 r hr

theorem wfListRule_of_mem {v : List Rule} (h : ∀ r ∈ v, wfRule r = true) :
    wfListRule v = true := by
  induction v with
  | nil => rfl
  | cons a as ih =>
    rw [wfListRule, Bool.and_eq_true]
    exact ⟨h a (List.mem_cons_self _ _),
      ih fun r hr => h r (List.mem_cons_of_mem _ hr)⟩

theorem sepList1Go_sound {α : Type} (sep : List Char → GRes Unit)
    (item : List Char → GRes α) (P : α → Prop)
    (hitem : ∀ s s' a, item s = GRes.ok s' a → P a) :
    ∀ (fuel : Nat) (i : List Char) (acc : List α) (s' : List Char)
      (out : List α),
      (∀ a ∈ acc, P a) → sepList1Go sep item fuel i acc = GRes.ok s' out →
      (∀ a ∈ out, P a) ∧ (acc ≠ [] → out ≠ []) := by
  intro fuel
  induction fuel with
  | zero => intro i acc s' out hacc h; cases h
  | succ fuel ih =>
    intro i acc s' out hacc h
    rw [sepList1Go] at h
    cases hsep : sep i with
    | err =>
      rw [hsep] at h
      cases h
      exact ⟨hacc, fun h => h⟩
    | panic => rw [hsep] at h; cases h
    | ok i1 u =>
      rw [hsep] at h
      dsimp only at h
      by_cases hlen : i1.length = i.length
      · rw [if_pos hlen] at h; cases h
      · rw [if_neg hlen] at h
        cases hit : item i1 with
        | err =>
          rw [hit] at h
          cases h
          exact ⟨hacc, fun h => h⟩
        | panic => rw [hit] at h; cases h
        | ok i2 a =>
          rw [hit] at h
          dsimp only at h
          have := ih i2 (acc ++ [a]) s' out
            (by
              intro x hx
              rcases List.mem_append.1 hx with hx | hx
              · exact hacc x hx
              · rw [List.mem_singleton.1 hx]
                exact hitem i1 i2 a hit) h
          exact ⟨this.1, fun _ => this.2 (by simp)⟩

theorem sepList1_sound {α : Type} (sep : List Char → GRes Unit)
    (item : List Char → GRes α) (P : α → Prop)
    (hitem : ∀ s s' a, item s = GRes.ok s' a → P a)
    (s s' : List Char) (out : List α)
    (h : sepList1 sep item s = GRes.ok s' out) :
    (∀ a ∈ out, P a) ∧ out ≠ [] := by
  rw [sepList1] at h
  cases hit : item s with
  | err => rw [hit] at h; cases h
  | panic => rw [hit] at h; cases h
  | ok s1 a =>
    rw [hit] at h
    dsimp only at h
    have := sepList1Go_sound sep item P hitem (s1.length + 1) s1 [a] s' out
      (by
        intro x hx
        rw [List.mem_singleton.1 hx]
        exact hitem s s1 a hit) h
    exact ⟨this.1, this.2 (by simp)⟩

theorem parse_ref_wf (s s' : List Char) (r : Rule)
    (h : parse_ref s = GRes.ok s' r) : wfRule r = true := by
  rw [parse_ref] at h
  cases hd : digit1 s with
  | err => rw [hd] at h; cases h
  | panic => rw [hd] at h; cases h
  | ok rest ds =>
    rw [hd] at h
    dsimp only at h
    by_cases hle : natOfDigits ds ≤ usizeMax
    · rw [if_pos hle] at h
      cases h
      rfl
    · rw [if_neg hle] at h; cases h

theorem parse_lit_wf (s s' : List Char) (r : Rule)
    (h : parse_lit s = GRes.ok s' r) : wfRule r = true := by
  rw [parse_lit] at h
  cases h1 : charP '"' s with
  | err => rw [h1] at h; cases h
  | panic => rw [h1] at h; cases h
  | ok s1 u =>
    rw [h1] at h
    dsimp only at h
    cases h2 : alpha1 s1 with
    | err => rw [h2] at h; cases h
    | panic => rw [h2] at h; cases h
    | ok s2 t =>
      rw [h2] at h
      dsimp only at h
      cases h3 : charP '"' s2 with
      | err => rw [h3] at h; cases h
      | panic => rw [h3] at h; cases h
      | ok s3 u' =>
        rw [h3] at h
        dsimp only at h
        cases h
        rfl

theorem parse_sequence_wf (s s' : List Char) (r : Rule)
    (h : parse_sequence s = GRes.ok s' r) : wfRule r = true := by
  rw [parse_sequence] at h
  cases hl : sepList1 space1 parse_ref s with
  | err => rw [hl] at h; cases h
  | panic => rw [hl] at h; cases h
  | ok rest v =>
    rw [hl] at h
    dsimp only at h
    cases h
    have := sepList1_sound space1 parse_ref (fun r => wfRule r = true)
      parse_ref_wf s _ v hl
    rw [wfRule, Bool.and_eq_true]
    constructor
    · cases v with
      | nil => exact absurd rfl this.2
      | cons a as => rfl
    · exact wfListRule_of_mem this.1

theorem parse_alternative_wf (s s' : List Char) (r : Rule)
    (h : parse_alternative s = GRes.ok s' r) : wfRule r = true := by
  rw [parse_alternative] at h
  cases hl : sepList1 (tagP [' ', '|', ' ']) parse_sequence s with
  | err => rw [hl] at h; cases h
  | panic => rw [hl] at h; cases h
  | ok rest v =>
    rw [hl] at h
    have hv := sepList1_sound (tagP [' ', '|', ' ']) parse_sequence
      (fun r => wfRule r = true) parse_sequence_wf s rest v hl
    cases v with
    | nil => exact absurd rfl hv.2
    | cons a as =>
      cases as with
      | nil =>
        dsimp only at h
        cases h
        exact hv.1 _ (List.mem_cons_self _ _)
      | cons b bs =>
        dsimp only at h
        cases h
        rw [wfRule, Bool.and_eq_true]
        exact ⟨rfl, wfListRule_of_mem hv.1⟩

theorem Rule_parse_wf (s s' : List Char) (r : Rule)
    (h : Rule.parse s = GRes.ok s' r) : wfRule r = true := by
  rw [Rule.parse] at h
  cases h1 : parse_alternative s with
  | ok s1 r1 =>
    rw [h1] at h
    dsimp only at h
    cases h
    exact parse_alternative_wf s s' r h1
  | panic => rw [h1] at h; cases h
  | err =>
    rw [h1] at h
    dsimp only at h
    cases h2 : parse_sequence s with
    | ok s2 r2 =>
      rw [h2] at h
      dsimp only at h
      cases h
      exact parse_sequence_wf s s' r h2
    | panic => rw [h2] at h; cases h
    | err =>
      rw [h2] at h
      dsimp only at h
      cases h3 : parse_lit s with
      | ok s3 r3 =>
        rw [h3] at h
        dsimp only at h
        cases h
        exact parse_lit_wf s s' r h3
      | panic => rw [h3] at h; cases h
      | err =>
        rw [h3] at h
        dsimp only at h
        exact parse_ref_wf s s' r h

theorem parse_line_wf (s s' : List Char) (p : Nat × Rule)
    (h : parse_line s = GRes.ok s' p) : wfRule p.2 = true := by
  rw [parse_line] at h
  cases h1 : digit1 s with
  | err => rw [h1] at h; cases h
  | panic => rw [h1] at h; cases h
  | ok s1 ds =>
    rw [h1] at h
    dsimp only at h
    by_cases hle : natOfDigits ds ≤ usizeMax
    · rw [if_pos hle] at h
      cases h2 : tagP [':', ' '] s1 with
      | err => rw [h2] at h; cases h
      | panic => rw [h2] at h; cases h
      | ok s2 u =>
        rw [h2] at h
        dsimp only at h
        cases h3 : Rule.parse s2 with
        | err => rw [h3] at h; cases h
        | panic => rw [h3] at h; cases h
        | ok s3 r =>
          rw [h3] at h
          dsimp only at h
          cases h
          exact Rule_parse_wf s2 _ _ h3
    · rw [if_neg hle] at h; cases h

theorem wfRS_insertRule {g : RuleSet} {i : Nat} {r : Rule}
    (hg : wfRS g = true) (hr : wfRule r = true) :
    wfRS (RuleSet.insertRule g i r) = true := by
  induction g with
  | nil =>
    rw [RuleSet.insertRule]
    simp [wfRS, hr]
  | cons p t ih =>
    obtain ⟨k, v⟩ := p
    rw [wfRS, List.all_cons, Bool.and_eq_true] at hg
    rw [RuleSet.insertRule]
    by_cases h1 : i < k
    · rw [if_pos h1]
      simp only [wfRS, List.all_cons, Bool.and_eq_true]
      exact ⟨hr, hg.1, hg.2⟩
    · rw [if_neg h1]
      by_cases h2 : i = k
      · rw [if_pos h2]
        simp only [wfRS, List.all_cons, Bool.and_eq_true]
        exact ⟨hr, hg.2⟩
      · rw [if_neg h2]
        simp only [wfRS, List.all_cons, Bool.and_eq_true]
        exact ⟨hg.1, ih hg.2⟩

theorem wfRS_fold {lines : List (Nat × Rule)}
    (hl : ∀ p ∈ lines, wfRule p.2 = true) :
    ∀ (g : RuleSet), wfRS g = true →
      wfRS (lines.foldl (fun m p => RuleSet.insertRule m p.1 p.2) g) = true := by
  induction lines with
  | nil => intro g hg; exact hg
  | cons p t ih =>
    intro g hg
    rw [List.foldl_cons]
    exact ih (fun q hq => hl q (List.mem_cons_of_mem _ hq)) _
      (wfRS_insertRule hg (hl p (List.mem_cons_self _ _)))

theorem RuleSet_parse_wf (s s' : List Char) (g : RuleSet)
    (h : RuleSet.parse s = GRes.ok s' g) : wfRS g = true := by
  rw [RuleSet.parse] at h
  cases hl : sepList1 lineEnding parse_line s with
  | err => rw [hl] at h; cases h
  | panic => rw [hl] at h; cases h
  | ok s1 lines =>
    rw [hl] at h
    dsimp only at h
    cases ht : tagP ['\n', '\n'] s1 with
    | err => rw [ht] at h; cases h
    | panic => rw [ht] at h; cases h
    | ok s2 u =>
      rw [ht] at h
      dsimp only at h
      cases h
      have hlines := sepList1_sound lineEnding parse_line
        (fun p => wfRule p.2 = true) parse_line_wf s s1 lines hl
      exact wfRS_fold hlines.1 [] rfl

/-! ### No panic under well-formedness (C10) -/

theorem find?_wf {g : RuleSet} (hg : wfRS g = true) {i : Nat} {r : Rule}
    (h : RuleSet.find? g i = some r) : wfRule r = true := by
  induction g with
  | nil => cases h
  | cons p t ih =>
    obtain ⟨k, v⟩ := p
    rw [wfRS, List.all_cons, Bool.and_eq_true] at hg
    rw [RuleSet.find?] at h
    by_cases hik : i = k
    · rw [if_pos hik] at h
      cases h
      exact hg.1
    · rw [if_neg hik] at h
      exact ih hg.2 h

theorem dynTuple_no_panic {run1 : Rule → List Char → Option POutcome}
    {v : List Rule} (hv : ∀ r ∈ v, ∀ s, run1 r s ≠ some POutcome.panic) :
    ∀ s, dynTuple run1 v s ≠ some POutcome.panic := by
  induction v with
  | nil => intro s h; cases h
  | cons r rs ih =>
    intro s h
    rw [dynTuple] at h
    cases hr : run1 r s with
    | none => rw [hr] at h; cases h
    | some o =>
      rw [hr] at h
      cases o with
      | ok s' =>
        exact ih (fun r hr => hv r (List.mem_cons_of_mem _ hr)) s' h
      | err => cases h
      | fail => cases h
      | panic => exact hv r (List.mem_cons_self _ _) s hr

theorem dynChoice_no_panic {run1 : Rule → List Char → Option POutcome} :
    ∀ {v : List Rule}, v ≠ [] →
      (∀ r ∈ v, ∀ s, run1 r s ≠ some POutcome.panic) →
      ∀ s, dynChoice run1 v s ≠ some POutcome.panic := by
  intro v
  induction v with
  | nil => intro h; exact absurd rfl h
  | cons r rs ih =>
    intro _ hv s h
    cases rs with
    | nil => exact hv r (List.mem_cons_self _ _) s h
    | cons r' rs' =>
      rw [dynChoice] at h
      cases hr : run1 r s with
      | none => rw [hr] at h; cases h
      | some o =>
        rw [hr] at h
        cases o with
        | ok s' => cases h
        | panic => exact hv r (List.mem_cons_self _ _) s hr
        | err =>
          exact ih (by simp) (fun q hq => hv q (List.mem_cons_of_mem _ hq)) s h
        | fail =>
          exact ih (by simp) (fun q hq => hv q (List.mem_cons_of_mem _ hq)) s h

theorem runRule_no_panic {g : RuleSet} (hg : wfRS g = true) :
    ∀ (n : Nat) (r : Rule), wfRule r = true →
      ∀ (s : List Char), runRule g n r s ≠ some POutcome.panic := by
  intro n
  induction n with
  | zero => intro r _ s h; cases h
  | succ n ih =>
    intro r hr s h
    cases r with
    | Lit t =>
      rw [runRule] at h
      unfold litOutcome at h
      by_cases hp : t <+: s
      · rw [if_pos hp] at h; cases h
      · rw [if_neg hp] at h; cases h
    | Ref i =>
      rw [runRule] at h
      cases hf : RuleSet.find? g i with
      | none => rw [hf] at h; cases h
      | some r' =>
        rw [hf] at h
        exact ih r' (find?_wf hg hf) s h
    | Sequence v =>
      rw [wfRule, Bool.and_eq_true] at hr
      rw [runRule] at h
      exact dynTuple_no_panic
        (fun q hq s => ih q (wfListRule_mem hr.2 q hq) s) s h
    | Alternative v =>
      rw [wfRule, Bool.and_eq_true] at hr
      rw [runRule] at h
      have hne : v ≠ [] := by
        cases v with
        | nil => cases hr.1
        | cons a as => simp
      exact dynChoice_no_panic hne
        (fun q hq s => ih q (wfListRule_mem hr.2 q hq) s) s h

/-- **C10.**  Every rule set `RuleSet::parse` produces has only
non-empty `Sequence`/`Alternative` member lists; under that invariant
the matcher never reaches the empty-vector case of
`DynamicAlt::choice` — which, run on an empty `Alternative`, does
panic. -/
theorem c10_wf_no_panic :
    (∀ (s s' : List Char) (g : RuleSet),
      RuleSet.parse s = GRes.ok s' g → wfRS g = true) ∧
    (∀ (g : RuleSet), wfRS g = true → ∀ (n i : Nat) (s : List Char),
      parse_with_rule g n i s ≠ some MatchResult.panicked) ∧
    (∀ (g : RuleSet) (n : Nat) (s : List Char),
      runRule g (n + 1) (Rule.Alternative []) s = some POutcome.panic) := by
  refine ⟨RuleSet_parse_wf, ?_, fun g n s => rfl⟩
  intro g hg n i s h
  cases hf : RuleSet.find? g i with
  | none =>
    rw [parse_with_rule_of_find_none hf] at h
    cases Option.some_inj.1 h
  | some r =>
    rw [parse_with_rule_of_find_some hf] at h
    cases ho : runRule g n r s with
    | none => rw [ho] at h; cases h
    | some o =>
      rw [ho] at h
      cases o with
      | ok rest =>
        simp only [Option.map_some', interp] at h
        split at h
        · cases Option.some_inj.1 h
        · cases Option.some_inj.1 h
      | err => cases Option.some_inj.1 h
      | fail => cases Option.some_inj.1 h
      | panic => exact runRule_no_panic hg n r (find?_wf hg hf) s ho

/-- Witness for C10: the compiled Scenario B grammar is well-formed and
its matching panics nowhere on `"a"`. -/
theorem c10_witness :
    wfRS gB = true ∧
    parse_with_rule gB 5 0 ['a'] ≠ some MatchResult.panicked :=
  ⟨c10_wf_no_panic.1 scenarioBText [] gB (by decide),
   c10_wf_no_panic.2.1 gB (c10_wf_no_panic.1 scenarioBText [] gB (by decide))
     5 0 ['a']⟩

/-! ### Idempotence of the simplifier (C6) -/

theorem changesExist_simplify_aux :
    ∀ (n : Nat) (g : RuleSet), measureRS g ≤ n →
      changesExist (simplify g) = false := by
  intro n
  induction n with
  | zero =>
    intro g hg
    unfold simplify
    split
    · rename_i h
      exact absurd (measureRS_simplifyStep_lt h) (by omega)
    · rename_i h
      exact Bool.eq_false_iff.2 h
  | succ n ih =>
    intro g hg
    unfold simplify
    split
    · rename_i h
      exact ih (simplifyStep g) (by have := measureRS_simplifyStep_lt h; omega)
    · rename_i h
      exact Bool.eq_false_iff.2 h

/-- The pass after `simplify` finishes records no change. -/
theorem changesExist_simplify (g : RuleSet) :
    changesExist (simplify g) = false :=
  changesExist_simplify_aux (measureRS g) g le_rfl

/-- **C6.**  `simplify` is idempotent: a second run starts from a table
whose pass records no change and returns it untouched. -/
theorem c6_simplify_idempotent (g : RuleSet) :
    simplify (simplify g) = simplify g := by
  rw [simplify.eq_def]
  simp [changesExist_simplify g]

/-! ### Shape of one simplification pass (towards C5) -/

theorem find?_map_applySimp (g0 : RuleSet) :
    ∀ (l : List (Nat × Rule)) (i : Nat),
      RuleSet.find? (l.map fun p => (p.1, applySimp g0 p.1 p.2)) i =
        (RuleSet.find? l i).map (applySimp g0 i) := by
  intro l
  induction l with
  | nil => intro i; rfl
  | cons p t ih =>
    intro i
    obtain ⟨k, r⟩ := p
    rw [List.map_cons, RuleSet.find?, RuleSet.find?]
    by_cases hik : i = k
    · rw [if_pos hik, if_pos hik, hik, Option.map_some']
    · rw [if_neg hik, if_neg hik, ih]

theorem find?_simplifyStep (g : RuleSet) (i : Nat) :
    RuleSet.find? (simplifyStep g) i =
      (RuleSet.find? g i).map (applySimp g i) :=
  find?_map_applySimp g g i

theorem simplifyMembers_eq_map (g : RuleSet) (idx : Nat) :
    ∀ v : List Rule, simplifyMembers g idx v = v.map (simplify_rule g idx) := by
  intro v
  induction v with
  | nil => rfl
  | cons r rs ih => rw [simplifyMembers, List.map_cons, ih]

theorem zipWith_getD_map (g : RuleSet) (idx : Nat) :
    ∀ v : List Rule,
      List.zipWith (fun o r => o.getD r) (simplifyMembers g idx v) v =
        v.map (applySimp g idx) := by
  intro v
  induction v with
  | nil => rfl
  | cons r rs ih =>
    rw [simplifyMembers, List.map_cons, List.zipWith_cons_cons, ih]
    rfl

theorem map_applySimp_of_all_none (g : RuleSet) (idx : Nat) {v : List Rule}
    (h : (simplifyMembers g idx v).all Option.isNone = true) :
    v.map (applySimp g idx) = v := by
  induction v with
  | nil => rfl
  | cons r rs ih =>
    rw [simplifyMembers, List.all_cons, Bool.and_eq_true] at h
    rw [List.map_cons, ih h.2]
    have : applySimp g idx r = r := by
      unfold applySimp
      cases hs : simplify_rule g idx r with
      | none => rfl
      | some r' => rw [hs] at h; cases h.1
    rw [this]

theorem applySimp_Lit (g : RuleSet) (idx : Nat) (t : List Char) :
    applySimp g idx (Rule.Lit t) = Rule.Lit t := rfl

theorem applySimp_Ref (g : RuleSet) (idx i : Nat) :
    applySimp g idx (Rule.Ref i) = Rule.Ref i ∨
    (∃ t, RuleSet.find? g i = some (Rule.Lit t) ∧
      applySimp g idx (Rule.Ref i) = Rule.Lit t) := by
  have hA : applySimp g idx (Rule.Ref i) =
      (simplify_rule g idx (Rule.Ref i)).getD (Rule.Ref i) := rfl
  rw [hA, simplify_rule]
  by_cases hi : i = idx
  · rw [if_pos hi]
    left
    rfl
  · rw [if_neg hi]
    cases hf : RuleSet.find? g i with
    | none => left; rfl
    | some r =>
      cases r with
      | Lit t => right; exact ⟨t, rfl, rfl⟩
      | Ref j => left; rfl
      | Sequence w => left; rfl
      | Alternative w => left; rfl

theorem isLitRule_exists {r : Rule} (h : isLitRule r = true) :
    ∃ t, r = Rule.Lit t := by
  cases r with
  | Lit t => exact ⟨t, rfl⟩
  | Ref i => cases h
  | Sequence v => cases h
  | Alternative v => cases h

theorem applySimp_Sequence (g : RuleSet) (idx : Nat) (v : List Rule) :
    applySimp g idx (Rule.Sequence v) =
      Rule.Sequence (v.map (applySimp g idx)) ∨
    (applySimp g idx (Rule.Sequence v) =
      Rule.Lit (((v.map (applySimp g idx)).map litText).flatten) ∧
      ∀ m ∈ v.map (applySimp g idx), ∃ t, m = Rule.Lit t) := by
  have hA : applySimp g idx (Rule.Sequence v) =
      (simplify_rule g idx (Rule.Sequence v)).getD (Rule.Sequence v) := rfl
  rw [hA, simplify_rule]
  dsimp only
  by_cases hall : (simplifyMembers g idx v).all Option.isNone = true
  · rw [if_pos hall]
    left
    rw [Option.getD_none, map_applySimp_of_all_none g idx hall]
  · rw [if_neg hall, zipWith_getD_map]
    by_cases hlit : (v.map (applySimp g idx)).all isLitRule = true
    · rw [if_pos hlit]
      right
      refine ⟨rfl, ?_⟩
      intro m hm
      exact isLitRule_exists (List.all_eq_true.1 hlit m hm)
    · rw [if_neg hlit]
      left
      rfl

theorem allEqual_eq {b : Rule} {bs : List Rule}
    (h : allEqual (b :: bs) = true) : ∀ m ∈ b :: bs, m = b := by
  rw [allEqual] at h
  intro m hm
  rcases List.mem_cons.1 hm with rfl | hm
  · rfl
  · exact ((beqRule_iff b m).1 (List.all_eq_true.1 h m hm)).symm

theorem applySimp_Alternative (g : RuleSet) (idx : Nat) (v : List Rule) :
    applySimp g idx (Rule.Alternative v) =
      Rule.Alternative (v.map (applySimp g idx)) ∨
    (v ≠ [] ∧ ∃ b, (∀ m ∈ v.map (applySimp g idx), m = b) ∧
      applySimp g idx (Rule.Alternative v) = b) := by
  have hA : applySimp g idx (Rule.Alternative v) =
      (simplify_rule g idx (Rule.Alternative v)).getD (Rule.Alternative v) :=
    rfl
  rw [hA, simplify_rule]
  dsimp only
  by_cases hall : (simplifyMembers g idx v).all Option.isNone = true
  · rw [if_pos hall]
    left
    rw [Option.getD_none, map_applySimp_of_all_none g idx hall]
  · rw [if_neg hall, zipWith_getD_map]
    cases hv : v.map (applySimp g idx) with
    | nil =>
      exact absurd (by rw [List.map_eq_nil_iff.1 hv, simplifyMembers]; rfl) hall
    | cons b bs =>
      dsimp only
      by_cases heq : allEqual (b :: bs) = true
      · rw [if_pos heq]
        right
        refine ⟨?_, b, ?_, rfl⟩
        · intro hnil
          rw [hnil] at hv
          cases hv
        · exact allEqual_eq heq
      · rw [if_neg heq]
        left
        rfl

/-! ### Literal concatenation semantics (towards C5) -/

theorem prefix_append_iff (a b s : List Char) :
    (a ++ b) <+: s ↔ a <+: s ∧ b <+: s.drop a.length := by
  constructor
  · rintro ⟨t, ht⟩
    rw [List.append_assoc] at ht
    refine ⟨⟨b ++ t, ht⟩, ?_⟩
    rw [← ht, List.drop_left]
    exact ⟨t, rfl⟩
  · rintro ⟨⟨u, hu⟩, ⟨w, hw⟩⟩
    refine ⟨w, ?_⟩
    rw [← hu, List.drop_left] at hw
    rw [List.append_assoc, hw, hu]

theorem litOutcome_nil (s : List Char) : litOutcome [] s = POutcome.ok s := by
  unfold litOutcome
  rw [if_pos (List.nil_prefix)]
  rfl

theorem litOutcome_append (a b s : List Char) :
    litOutcome (a ++ b) s =
      match litOutcome a s with
      | POutcome.ok s' => litOutcome b s'
      | o => o := by
  unfold litOutcome
  by_cases ha : a <+: s
  · rw [if_pos ha]
    dsimp only
    by_cases hb : b <+: s.drop a.length
    · rw [if_pos hb, if_pos ((prefix_append_iff a b s).2 ⟨ha, hb⟩)]
      rw [List.length_append, List.drop_drop]
    · rw [if_neg hb, if_neg (fun h => hb ((prefix_append_iff a b s).1 h).2)]
  · rw [if_neg ha, if_neg (fun h => ha ((prefix_append_iff a b s).1 h).1)]

theorem litOutcome_cases (t s : List Char) :
    litOutcome t s = POutcome.ok (s.drop t.length) ∨
    litOutcome t s = POutcome.err := by
  unfold litOutcome
  split
  · exact Or.inl rfl
  · exact Or.inr rfl

mutual

/-- A rule whose simplification is `Lit t` runs exactly as the literal
`t` does. -/
theorem applySimp_lit_run :
    ∀ (g : RuleSet) (idx : Nat) (m : Rule) (t : List Char),
      applySimp g idx m = Rule.Lit t → ∀ s : List Char,
        ∃ n, runRule g n m s = some (litOutcome t s)
  | g, idx, Rule.Lit t', t => by
    intro h s
    rw [applySimp_Lit] at h
    cases h
    exact ⟨1, rfl⟩
  | g, idx, Rule.Ref i, t => by
    intro h s
    rcases applySimp_Ref g idx i with h1 | ⟨t', hf, h1⟩
    · rw [h1] at h; cases h
    · rw [h1] at h
      cases h
      refine ⟨2, ?_⟩
      rw [runRule, hf]
      rfl
  | g, idx, Rule.Sequence v, t => by
    intro h s
    rcases applySimp_Sequence g idx v with h1 | ⟨h1, hlits⟩
    · rw [h1] at h; cases h
    · rw [h1] at h
      cases h
      obtain ⟨n, hn⟩ := seqLits_run g idx v
        (fun m hm => hlits _ (List.mem_map_of_mem _ hm)) s
      exact ⟨n + 1, hn⟩
  | g, idx, Rule.Alternative v, t => by
    intro h s
    rcases applySimp_Alternative g idx v with h1 | ⟨hne, b, hb, h1⟩
    · rw [h1] at h; cases h
    · rw [h1] at h
      subst h
      obtain ⟨n, hn⟩ := altLits_run g idx v t
        (fun m hm => hb _ (List.mem_map_of_mem _ hm)) hne s
      exact ⟨n + 1, hn⟩

/-- A list of rules whose simplifications are all literals runs, as a
sequence, exactly as the concatenated literal does. -/
theorem seqLits_run :
    ∀ (g : RuleSet) (idx : Nat) (v : List Rule),
      (∀ m ∈ v, ∃ t, applySimp g idx m = Rule.Lit t) → ∀ s : List Char,
        ∃ n, dynTuple (runRule g n) v s =
          some (litOutcome (((v.map (applySimp g idx)).map litText).flatten) s)
  | g, idx, [] => by
    intro _ s
    refine ⟨0, ?_⟩
    rw [List.map_nil, List.map_nil, List.flatten_nil, litOutcome_nil]
    rfl
  | g, idx, m :: ms => by
    intro hall s
    obtain ⟨t, ht⟩ := hall m (List.mem_cons_self _ _)
    obtain ⟨n1, h1⟩ := applySimp_lit_run g idx m t ht s
    have htext : ((((m :: ms).map (applySimp g idx)).map litText).flatten) =
        t ++ ((ms.map (applySimp g idx)).map litText).flatten := by
      rw [List.map_cons, List.map_cons, List.flatten_cons, ht, litText]
    rw [htext, litOutcome_append]
    cases hlo : litOutcome t s with
    | ok s' =>
      obtain ⟨n2, h2⟩ := seqLits_run g idx ms
        (fun m' hm' => hall m' (List.mem_cons_of_mem _ hm')) s'
      refine ⟨max n1 n2, ?_⟩
      rw [hlo] at h1
      rw [dynTuple, runRule_mono g (Nat.le_max_left n1 n2) h1]
      exact dynTuple_mono
        (fun r s o h => runRule_mono g (Nat.le_max_right n1 n2) h) ms s' _ h2
    | err =>
      refine ⟨n1, ?_⟩
      rw [hlo] at h1
      rw [dynTuple, h1]
    | fail =>
      rcases litOutcome_cases t s with h | h <;> rw [h] at hlo <;> cases hlo
    | panic =>
      rcases litOutcome_cases t s with h | h <;> rw [h] at hlo <;> cases hlo

/-- A non-empty list of rules whose simplifications all equal `Lit t`
runs, as an alternative, exactly as the literal `t` does. -/
theorem altLits_run :
    ∀ (g : RuleSet) (idx : Nat) (v : List Rule) (t : List Char),
      (∀ m ∈ v, applySimp g idx m = Rule.Lit t) → v ≠ [] →
      ∀ s : List Char, ∃ n, dynChoice (runRule g n) v s =
        some (litOutcome t s)
  | g, idx, [], t => by
    intro _ hne
    exact absurd rfl hne
  | g, idx, [m], t => by
    intro hall _ s
    obtain ⟨n, hn⟩ := applySimp_lit_run g idx m t
      (hall m (List.mem_cons_self _ _)) s
    exact ⟨n, hn⟩
  | g, idx, m :: m' :: ms, t => by
    intro hall _ s
    obtain ⟨n1, h1⟩ := applySimp_lit_run g idx m t
      (hall m (List.mem_cons_self _ _)) s
    cases hlo : litOutcome t s with
    | ok s' =>
      refine ⟨n1, ?_⟩
      rw [hlo] at h1
      rw [dynChoice, h1]
    | err =>
      obtain ⟨n2, h2⟩ := altLits_run g idx (m' :: ms) t
        (fun q hq => hall q (List.mem_cons_of_mem _ hq)) (by simp) s
      refine ⟨max n1 n2, ?_⟩
      rw [hlo] at h1 h2
      rw [dynChoice, runRule_mono g (Nat.le_max_left n1 n2) h1]
      exact dynChoice_mono
        (fun r s o h => runRule_mono g (Nat.le_max_right n1 n2) h)
        (m' :: ms) s _ h2
    | fail =>
      rcases litOutcome_cases t s with h | h <;> rw [h] at hlo <;> cases hlo
    | panic =>
      rcases litOutcome_cases t s with h | h <;> rw [h] at hlo <;> cases hlo

end

/-- A run of a rule whose simplification is `Lit t` can only produce
the literal's outcome (corollary of `applySimp_lit_run` and
determinism). -/
theorem applySimp_lit_out {g : RuleSet} {idx : Nat} {m : Rule}
    {t : List Char} (hφ : applySimp g idx m = Rule.Lit t)
    {n : Nat} {s : List Char} {o : POutcome}
    (h : runRule g n m s = some o) : o = litOutcome t s := by
  obtain ⟨n', h'⟩ := applySimp_lit_run g idx m t hφ s
  exact runRule_agree g h h'

/-! ### Forward simulation of one pass (towards C5) -/

/-- A run of a sequence whose members all simplify to literals can only
produce the concatenated literal's outcome. -/
theorem seqLits_out (g : RuleSet) (idx : Nat) (n : Nat) :
    ∀ (v : List Rule) (s : List Char) (o : POutcome),
      (∀ m ∈ v, ∃ t, applySimp g idx m = Rule.Lit t) →
      dynTuple (runRule g n) v s = some o →
      o = litOutcome (((v.map (applySimp g idx)).map litText).flatten) s := by
  intro v
  induction v with
  | nil =>
    intro s o _ h
    rw [List.map_nil, List.map_nil, List.flatten_nil, litOutcome_nil]
    exact (Option.some_inj.1 h).symm
  | cons m ms ih =>
    intro s o hall h
    obtain ⟨t, ht⟩ := hall m (List.mem_cons_self _ _)
    have htext : ((((m :: ms).map (applySimp g idx)).map litText).flatten) =
        t ++ ((ms.map (applySimp g idx)).map litText).flatten := by
      rw [List.map_cons, List.map_cons, List.flatten_cons, ht, litText]
    rw [htext, litOutcome_append]
    rw [dynTuple] at h
    cases hr : runRule g n m s with
    | none => rw [hr] at h; cases h
    | some o1 =>
      rw [hr] at h
      have ho1 : o1 = litOutcome t s := applySimp_lit_out ht hr
      cases o1 with
      | ok s' =>
        rw [← ho1]
        exact ih s' o (fun q hq => hall q (List.mem_cons_of_mem _ hq)) h
      | err =>
        rw [← ho1]
        exact (Option.some_inj.1 h).symm
      | fail =>
        rcases litOutcome_cases t s with hc | hc <;> rw [hc] at ho1 <;>
          cases ho1
      | panic =>
        rcases litOutcome_cases t s with hc | hc <;> rw [hc] at ho1 <;>
          cases ho1

theorem forward_tuple (g : RuleSet) (n idx : Nat)
    (IH : ∀ (r : Rule) (idx : Nat) (s : List Char) (o : POutcome),
      runRule g n r s = some o →
      ∃ m, runRule (simplifyStep g) m (applySimp g idx r) s = some o) :
    ∀ (v : List Rule) (s : List Char) (o : POutcome),
      dynTuple (runRule g n) v s = some o →
      ∃ m, dynTuple (runRule (simplifyStep g) m)
        (v.map (applySimp g idx)) s = some o := by
  intro v
  induction v with
  | nil =>
    intro s o h
    exact ⟨0, h⟩
  | cons r rs ih =>
    intro s o h
    rw [dynTuple] at h
    cases hr : runRule g n r s with
    | none => rw [hr] at h; cases h
    | some o1 =>
      rw [hr] at h
      obtain ⟨m1, hm1⟩ := IH r idx s o1 hr
      cases o1 with
      | ok s' =>
        obtain ⟨m2, hm2⟩ := ih s' o h
        refine ⟨max m1 m2, ?_⟩
        rw [List.map_cons, dynTuple,
          runRule_mono (simplifyStep g) (Nat.le_max_left m1 m2) hm1]
        exact dynTuple_mono
          (fun r s o hh => runRule_mono (simplifyStep g)
            (Nat.le_max_right m1 m2) hh) _ s' o hm2
      | err =>
        cases h
        exact ⟨m1, by rw [List.map_cons, dynTuple, hm1]⟩
      | fail =>
        cases h
        exact ⟨m1, by rw [List.map_cons, dynTuple, hm1]⟩
      | panic =>
        cases h
        exact ⟨m1, by rw [List.map_cons, dynTuple, hm1]⟩

theorem forward_choice (g : RuleSet) (n idx : Nat)
    (IH : ∀ (r : Rule) (idx : Nat) (s : List Char) (o : POutcome),
      runRule g n r s = some o →
      ∃ m, runRule (simplifyStep g) m (applySimp g idx r) s = some o) :
    ∀ (v : List Rule) (s : List Char) (o : POutcome),
      dynChoice (runRule g n) v s = some o →
      ∃ m, dynChoice (runRule (simplifyStep g) m)
        (v.map (applySimp g idx)) s = some o := by
  intro v
  induction v with
  | nil =>
    intro s o h
    exact ⟨0, h⟩
  | cons r rs ih =>
    intro s o h
    cases rs with
    | nil =>
      obtain ⟨m1, hm1⟩ := IH r idx s o h
      exact ⟨m1, hm1⟩
    | cons r' rs' =>
      rw [dynChoice] at h
      cases hr : runRule g n r s with
      | none => rw [hr] at h; cases h
      | some o1 =>
        rw [hr] at h
        obtain ⟨m1, hm1⟩ := IH r idx s o1 hr
        cases o1 with
        | ok s' =>
          cases h
          exact ⟨m1, by
            rw [List.map_cons, List.map_cons, dynChoice, hm1]⟩
        | panic =>
          cases h
          exact ⟨m1, by
            rw [List.map_cons, List.map_cons, dynChoice, hm1]⟩
        | err =>
          obtain ⟨m2, hm2⟩ := ih s o h
          refine ⟨max m1 m2, ?_⟩
          rw [List.map_cons, List.map_cons, dynChoice,
            runRule_mono (simplifyStep g) (Nat.le_max_left m1 m2) hm1]
          rw [List.map_cons] at hm2
          exact dynChoice_mono
            (fun r s o hh => runRule_mono (simplifyStep g)
              (Nat.le_max_right m1 m2) hh) _ s o hm2
        | fail =>
          obtain ⟨m2, hm2⟩ := ih s o h
          refine ⟨max m1 m2, ?_⟩
          rw [List.map_cons, List.map_cons, dynChoice,
            runRule_mono (simplifyStep g) (Nat.le_max_left m1 m2) hm1]
          rw [List.map_cons] at hm2
          exact dynChoice_mono
            (fun r s o hh => runRule_mono (simplifyStep g)
              (Nat.le_max_right m1 m2) hh) _ s o hm2

theorem forward_collapse (g : RuleSet) (n idx : Nat)
    (IH : ∀ (r : Rule) (idx : Nat) (s : List Char) (o : POutcome),
      runRule g n r s = some o →
      ∃ m, runRule (simplifyStep g) m (applySimp g idx r) s = some o) :
    ∀ (v : List Rule) (b : Rule), v ≠ [] →
      (∀ m' ∈ v, applySimp g idx m' = b) →
      ∀ (s : List Char) (o : POutcome),
        dynChoice (runRule g n) v s = some o →
        ∃ m, runRule (simplifyStep g) m b s = some o := by
  intro v
  induction v with
  | nil => intro b hne; exact absurd rfl hne
  | cons r rs ih =>
    intro b _ hb s o h
    cases rs with
    | nil =>
      obtain ⟨m1, hm1⟩ := IH r idx s o h
      rw [hb r (List.mem_cons_self _ _)] at hm1
      exact ⟨m1, hm1⟩
    | cons r' rs' =>
      rw [dynChoice] at h
      cases hr : runRule g n r s with
      | none => rw [hr] at h; cases h
      | some o1 =>
        rw [hr] at h
        cases o1 with
        | ok s' =>
          cases h
          obtain ⟨m1, hm1⟩ := IH r idx s _ hr
          rw [hb r (List.mem_cons_self _ _)] at hm1
          exact ⟨m1, hm1⟩
        | panic =>
          cases h
          obtain ⟨m1, hm1⟩ := IH r idx s _ hr
          rw [hb r (List.mem_cons_self _ _)] at hm1
          exact ⟨m1, hm1⟩
        | err =>
          exact ih b (by simp) (fun q hq => hb q (List.mem_cons_of_mem _ hq))
            s o h
        | fail =>
          exact ih b (by simp) (fun q hq => hb q (List.mem_cons_of_mem _ hq))
            s o h

/-- One simplification pass simulates the original table forward: any
outcome of a rule `r` against `g` is an outcome of its simplified form
against the rewritten table. -/
theorem step_forward (g : RuleSet) :
    ∀ (n : Nat) (r : Rule) (idx : Nat) (s : List Char) (o : POutcome),
      runRule g n r s = some o →
      ∃ m, runRule (simplifyStep g) m (applySimp g idx r) s = some o := by
  intro n
  induction n with
  | zero => intro r idx s o h; cases h
  | succ n ih =>
    intro r idx s o h
    cases r with
    | Lit t =>
      have ho : litOutcome t s = o := Option.some_inj.1 h
      rw [applySimp_Lit]
      exact ⟨1, by rw [← ho]; rfl⟩
    | Ref i =>
      rw [runRule] at h
      cases hf : RuleSet.find? g i with
      | none =>
        rw [hf] at h
        have ho : POutcome.fail = o := Option.some_inj.1 h
        rcases applySimp_Ref g idx i with h1 | ⟨t, hft, h1⟩
        · rw [h1]
          refine ⟨1, ?_⟩
          rw [runRule, find?_simplifyStep, hf, ← ho]
          rfl
        · rw [hft] at hf; cases hf
      | some r' =>
        rw [hf] at h
        rcases applySimp_Ref g idx i with h1 | ⟨t, hft, h1⟩
        · rw [h1]
          obtain ⟨m, hm⟩ := ih r' i s o h
          refine ⟨m + 1, ?_⟩
          rw [runRule, find?_simplifyStep, hf, Option.map_some']
          exact hm
        · rw [hft] at hf
          cases hf
          cases n with
          | zero => cases h
          | succ n' =>
            have ho : litOutcome t s = o := Option.some_inj.1 h
            rw [h1]
            exact ⟨1, by rw [← ho]; rfl⟩
    | Sequence v =>
      have hseq : dynTuple (runRule g n) v s = some o := h
      rcases applySimp_Sequence g idx v with h1 | ⟨h1, hlits⟩
      · rw [h1]
        obtain ⟨m, hm⟩ := forward_tuple g n idx ih v s o hseq
        exact ⟨m + 1, hm⟩
      · rw [h1]
        have ho := seqLits_out g idx n v s o
          (fun q hq => hlits _ (List.mem_map_of_mem _ hq)) hseq
        exact ⟨1, by rw [ho]; rfl⟩
    | Alternative v =>
      have halt : dynChoice (runRule g n) v s = some o := h
      rcases applySimp_Alternative g idx v with h1 | ⟨hne, b, hb, h1⟩
      · rw [h1]
        obtain ⟨m, hm⟩ := forward_choice g n idx ih v s o halt
        exact ⟨m + 1, hm⟩
      · rw [h1]
        exact forward_collapse g n idx ih v b hne
          (fun q hq => hb _ (List.mem_map_of_mem _ hq)) s o halt

/-! ### Backward simulation of one pass (towards C5) -/

theorem backward_tuple (g : RuleSet) (n1 idx : Nat)
    (IH : ∀ (r : Rule) (idx : Nat) (s : List Char) (o : POutcome),
      runRule (simplifyStep g) n1 (applySimp g idx r) s = some o →
      ∃ m, runRule g m r s = some o) :
    ∀ (v : List Rule) (s : List Char) (o : POutcome),
      dynTuple (runRule (simplifyStep g) n1)
        (v.map (applySimp g idx)) s = some o →
      ∃ m, dynTuple (runRule g m) v s = some o := by
  intro v
  induction v with
  | nil => intro s o h; exact ⟨0, h⟩
  | cons r rs ih =>
    intro s o h
    rw [List.map_cons, dynTuple] at h
    cases hr : runRule (simplifyStep g) n1 (applySimp g idx r) s with
    | none => rw [hr] at h; cases h
    | some o1 =>
      rw [hr] at h
      obtain ⟨m1, hm1⟩ := IH r idx s o1 hr
      cases o1 with
      | ok s' =>
        obtain ⟨m2, hm2⟩ := ih s' o h
        refine ⟨max m1 m2, ?_⟩
        rw [dynTuple, runRule_mono g (Nat.le_max_left m1 m2) hm1]
        exact dynTuple_mono
          (fun r s o hh => runRule_mono g (Nat.le_max_right m1 m2) hh)
          rs s' o hm2
      | err => cases h; exact ⟨m1, by rw [dynTuple, hm1]⟩
      | fail => cases h; exact ⟨m1, by rw [dynTuple, hm1]⟩
      | panic => cases h; exact ⟨m1, by rw [dynTuple, hm1]⟩

theorem backward_choice (g : RuleSet) (n1 idx : Nat)
    (IH : ∀ (r : Rule) (idx : Nat) (s : List Char) (o : POutcome),
      runRule (simplifyStep g) n1 (applySimp g idx r) s = some o →
      ∃ m, runRule g m r s = some o) :
    ∀ (v : List Rule) (s : List Char) (o : POutcome),
      dynChoice (runRule (simplifyStep g) n1)
        (v.map (applySimp g idx)) s = some o →
      ∃ m, dynChoice (runRule g m) v s = some o := by
  intro v
  induction v with
  | nil => intro s o h; exact ⟨0, h⟩
  | cons r rs ih =>
    intro s o h
    cases rs with
    | nil =>
      rw [List.map_cons, List.map_nil] at h
      obtain ⟨m1, hm1⟩ := IH r idx s o h
      exact ⟨m1, hm1⟩
    | cons r' rs' =>
      rw [List.map_cons, List.map_cons, dynChoice] at h
      cases hr : runRule (simplifyStep g) n1 (applySimp g idx r) s with
      | none => rw [hr] at h; cases h
      | some o1 =>
        rw [hr] at h
        obtain ⟨m1, hm1⟩ := IH r idx s o1 hr
        cases o1 with
        | ok s' => cases h; exact ⟨m1, by rw [dynChoice, hm1]⟩
        | panic => cases h; exact ⟨m1, by rw [dynChoice, hm1]⟩
        | err =>
          rw [← List.map_cons] at h
          obtain ⟨m2, hm2⟩ := ih s o h
          refine ⟨max m1 m2, ?_⟩
          rw [dynChoice, runRule_mono g (Nat.le_max_left m1 m2) hm1]
          exact dynChoice_mono
            (fun r s o hh => runRule_mono g (Nat.le_max_right m1 m2) hh)
            (r' :: rs') s o hm2
        | fail =>
          rw [← List.map_cons] at h
          obtain ⟨m2, hm2⟩ := ih s o h
          refine ⟨max m1 m2, ?_⟩
          rw [dynChoice, runRule_mono g (Nat.le_max_left m1 m2) hm1]
          exact dynChoice_mono
            (fun r s o hh => runRule_mono g (Nat.le_max_right m1 m2) hh)
            (r' :: rs') s o hm2

theorem fuel_uniform (g : RuleSet) :
    ∀ (v : List Rule) (s : List Char) (o : POutcome),
      (∀ m' ∈ v, ∃ k, runRule g k m' s = some o) →
      ∃ N, ∀ m' ∈ v, runRule g N m' s = some o := by
  intro v
  induction v with
  | nil => intro s o _; exact ⟨0, fun m' hm' => absurd hm' (List.not_mem_nil _)⟩
  | cons r rs ih =>
    intro s o hall
    obtain ⟨k1, hk1⟩ := hall r (List.mem_cons_self _ _)
    obtain ⟨N2, hN2⟩ := ih s o (fun q hq => hall q (List.mem_cons_of_mem _ hq))
    refine ⟨max k1 N2, ?_⟩
    intro m' hm'
    rcases List.mem_cons.1 hm' with rfl | hm'
    · exact runRule_mono g (Nat.le_max_left k1 N2) hk1
    · exact runRule_mono g (Nat.le_max_right k1 N2) (hN2 m' hm')

theorem dynChoice_const (g : RuleSet) (N : Nat) (s : List Char)
    (o : POutcome) :
    ∀ (v : List Rule), v ≠ [] →
      (∀ m' ∈ v, runRule g N m' s = some o) →
      dynChoice (runRule g N) v s = some o := by
  intro v
  induction v with
  | nil => intro hne; exact absurd rfl hne
  | cons r rs ih =>
    intro _ hall
    cases rs with
    | nil => exact hall r (List.mem_cons_self _ _)
    | cons r' rs' =>
      rw [dynChoice, hall r (List.mem_cons_self _ _)]
      cases o with
      | ok s' => rfl
      | panic => rfl
      | err =>
        exact ih (by simp) (fun q hq => hall q (List.mem_cons_of_mem _ hq))
      | fail =>
        exact ih (by simp) (fun q hq => hall q (List.mem_cons_of_mem _ hq))

/-- One simplification pass simulates backward too: any outcome of the
simplified rule against the rewritten table is an outcome of the
original rule against the original table. -/
theorem step_backward (g : RuleSet) :
    ∀ (n : Nat) (r : Rule) (idx : Nat) (s : List Char) (o : POutcome),
      runRule (simplifyStep g) n (applySimp g idx r) s = some o →
      ∃ m, runRule g m r s = some o := by
  intro n
  induction n using Nat.strong_induction_on with
  | _ n IHn =>
  suffices H : ∀ (k : Nat) (r : Rule), sizeOf r ≤ k → ∀ (idx : Nat)
      (s : List Char) (o : POutcome),
      runRule (simplifyStep g) n (applySimp g idx r) s = some o →
      ∃ m, runRule g m r s = some o by
    intro r idx s o h
    exact H (sizeOf r) r le_rfl idx s o h
  intro k
  induction k using Nat.strong_induction_on with
  | _ k IHk =>
  intro r hk idx s o h
  cases r with
  | Lit t =>
    rw [applySimp_Lit] at h
    cases n with
    | zero => cases h
    | succ n1 =>
      rw [runRule] at h
      have ho : litOutcome t s = o := Option.some_inj.1 h
      exact ⟨1, by rw [← ho]; rfl⟩
  | Ref i =>
    rcases applySimp_Ref g idx i with h1 | ⟨t, hft, h1⟩
    · rw [h1] at h
      cases n with
      | zero => cases h
      | succ n1 =>
        rw [runRule, find?_simplifyStep] at h
        cases hf : RuleSet.find? g i with
        | none =>
          rw [hf] at h
          have ho : POutcome.fail = o := Option.some_inj.1 h
          refine ⟨1, ?_⟩
          rw [runRule, hf, ho]
        | some r' =>
          rw [hf, Option.map_some'] at h
          obtain ⟨m, hm⟩ := IHn n1 (Nat.lt_succ_self n1) r' i s o h
          refine ⟨m + 1, ?_⟩
          rw [runRule, hf]
          exact hm
    · rw [h1] at h
      cases n with
      | zero => cases h
      | succ n1 =>
        rw [runRule] at h
        have ho : litOutcome t s = o := Option.some_inj.1 h
        refine ⟨2, ?_⟩
        rw [runRule, hft, ← ho]
        rfl
  | Sequence v =>
    rcases applySimp_Sequence g idx v with h1 | ⟨h1, hlits⟩
    · rw [h1] at h
      cases n with
      | zero => cases h
      | succ n1 =>
        rw [runRule] at h
        obtain ⟨m, hm⟩ := backward_tuple g n1 idx
          (fun r idx s o hh => IHn n1 (Nat.lt_succ_self n1) r idx s o hh)
          v s o h
        exact ⟨m + 1, hm⟩
    · rw [h1] at h
      cases n with
      | zero => cases h
      | succ n1 =>
        rw [runRule] at h
        have ho := Option.some_inj.1 h
        obtain ⟨m, hm⟩ := seqLits_run g idx v
          (fun q hq => hlits _ (List.mem_map_of_mem _ hq)) s
        rw [ho] at hm
        exact ⟨m + 1, hm⟩
  | Alternative v =>
    rcases applySimp_Alternative g idx v with h1 | ⟨hne, b, hb, h1⟩
    · rw [h1] at h
      cases n with
      | zero => cases h
      | succ n1 =>
        rw [runRule] at h
        obtain ⟨m, hm⟩ := backward_choice g n1 idx
          (fun r idx s o hh => IHn n1 (Nat.lt_succ_self n1) r idx s o hh)
          v s o h
        exact ⟨m + 1, hm⟩
    · rw [h1] at h
      have hmem : ∀ m' ∈ v, ∃ mm, runRule g mm m' s = some o := by
        intro m' hm'
        have hsz : sizeOf m' < k := by
          have h2 : sizeOf m' < sizeOf v := List.sizeOf_lt_of_mem hm'
          have h3 : sizeOf (Rule.Alternative v) = 1 + sizeOf v :=
            Rule.Alternative.sizeOf_spec v
          omega
        have hφ : applySimp g idx m' = b :=
          hb _ (List.mem_map_of_mem _ hm')
        exact IHk (sizeOf m') hsz m' le_rfl idx s o (by rw [hφ]; exact h)
      obtain ⟨N, hN⟩ := fuel_uniform g v s o hmem
      refine ⟨N + 1, ?_⟩
      rw [runRule]
      exact dynChoice_const g N s o v hne hN

/-! ### Simplification preserves matching (C5) -/

theorem pwr_step_equiv (g : RuleSet) (i : Nat) (s : List Char)
    (res : MatchResult) :
    (∃ n, parse_with_rule g n i s = some res) ↔
      (∃ n, parse_with_rule (simplifyStep g) n i s = some res) := by
  cases hf : RuleSet.find? g i with
  | none =>
    have hf' : RuleSet.find? (simplifyStep g) i = none := by
      rw [find?_simplifyStep, hf]
      rfl
    constructor
    · rintro ⟨n, h⟩
      rw [parse_with_rule_of_find_none hf] at h
      exact ⟨n, by rw [parse_with_rule_of_find_none hf']; exact h⟩
    · rintro ⟨n, h⟩
      rw [parse_with_rule_of_find_none hf'] at h
      exact ⟨n, by rw [parse_with_rule_of_find_none hf]; exact h⟩
  | some r =>
    have hf' : RuleSet.find? (simplifyStep g) i = some (applySimp g i r) := by
      rw [find?_simplifyStep, hf, Option.map_some']
    constructor
    · rintro ⟨n, h⟩
      rw [parse_with_rule_of_find_some hf] at h
      cases ho : runRule g n r s with
      | none => rw [ho] at h; cases h
      | some o =>
        rw [ho, Option.map_some'] at h
        obtain ⟨m, hm⟩ := step_forward g n r i s o ho
        exact ⟨m, by
          rw [parse_with_rule_of_find_some hf', hm, Option.map_some']
          exact h⟩
    · rintro ⟨n, h⟩
      rw [parse_with_rule_of_find_some hf'] at h
      cases ho : runRule (simplifyStep g) n (applySimp g i r) s with
      | none => rw [ho] at h; cases h
      | some o =>
        rw [ho, Option.map_some'] at h
        obtain ⟨m, hm⟩ := step_backward g n r i s o ho
        exact ⟨m, by
          rw [parse_with_rule_of_find_some hf, hm, Option.map_some']
          exact h⟩

theorem pwr_simplify_equiv_aux :
    ∀ (N : Nat) (g : RuleSet), measureRS g ≤ N →
      ∀ (i : Nat) (s : List Char) (res : MatchResult),
        ((∃ n, parse_with_rule g n i s = some res) ↔
          (∃ n, parse_with_rule (simplify g) n i s = some res)) := by
  intro N
  induction N with
  | zero =>
    intro g hg i s res
    unfold simplify
    split
    · rename_i h
      exact absurd (measureRS_simplifyStep_lt h) (by omega)
    · exact Iff.rfl
  | succ N ihN =>
    intro g hg i s res
    unfold simplify
    split
    · rename_i h
      exact (pwr_step_equiv g i s res).trans
        (ihN (simplifyStep g)
          (by have := measureRS_simplifyStep_lt h; omega) i s res)
    · exact Iff.rfl

/-- **C5.**  For every rule set, start id and candidate, matching
against `simplify g` returns exactly the same result (at some call
depth) as matching against `g` — success, ordinary parse failure,
missing start rule, and even the panic case all carry over in both
directions, and a diverging match stays diverging. -/
theorem c5_simplify_preserves_matching (g : RuleSet) (i : Nat)
    (s : List Char) (res : MatchResult) :
    (∃ n, parse_with_rule g n i s = some res) ↔
      (∃ n, parse_with_rule (simplify g) n i s = some res) :=
  pwr_simplify_equiv_aux (measureRS g) g le_rfl i s res

end Day19
